import Mathlib

/-!
Verification of the entity-resolution core of `project_oakland`.

This file shallowly embeds the Python scripts under
`scripts/03_entity_resolution/` as Lean definitions and proves or refutes
the specification claims about them.

Embedding conventions:
* machine floats are modelled as exact rationals (`ℚ`); the one place the
  code takes a square root (`np.linalg.norm` inside Tier 3) is kept
  abstract as a parameter `normF` with its defining inequalities as
  hypotheses, so that the scoring pipeline stays executable;
* `numpy`'s `argsort(kind=quicksort)` falls back to a *stable* insertion
  sort for the small arrays all our concrete statements use, and both the
  repository code (`[::-1]`, `20_tiered_entity_resolution.py` line 295 and
  `12_singleton_phase1_features.py` line 140) and `pandas`' `nargsort`
  produce a descending order by *reversing* the whole ascending result.
  We model this by `sSort` (stable insertion sort) followed by
  `List.reverse`;
* Python strings are Lean `String`s; `str.lower`/`str.upper`/`str.strip`
  are modelled by the corresponding ASCII operations;
* `jellyfish.jaro_winkler_similarity` is embedded following the reference
  implementation shipped with jellyfish (`_jellyfish.py`): empty input
  short-circuits to 0, a flag-based matching phase, a transposition count,
  and the Winkler prefix boost (capped at 4) applied when the Jaro weight
  exceeds 0.7.
-/

namespace ER

open List

/-- Python whitespace (`str.split` / regex `\s`) restricted to ASCII. -/
def pySpace (c : Char) : Bool :=
  c = ' ' || c = '\t' || c = '\n' || c = '\r' || c = '\x0b' || c = '\x0c'

/-- ASCII `str.lower` (structural, so that concrete statements evaluate
in the kernel; agrees with Python on ASCII input). -/
def pyLower (s : String) : String := ⟨s.data.map Char.toLower⟩

/-- ASCII `str.upper`. -/
def pyUpper (s : String) : String := ⟨s.data.map Char.toUpper⟩

/-- Python `str.strip()`. -/
def pyStrip (s : String) : String :=
  ⟨((s.data.dropWhile pySpace).reverse.dropWhile pySpace).reverse⟩

/-- Does `p` occur at the very start of `t`? (helper for substring tests). -/
def leadsList : List Char → List Char → Bool
  | [], _ => true
  | _ :: _, [] => false
  | a :: as, b :: bs => a == b && leadsList as bs

/-- Python's `p in t` on strings: `p` occurs contiguously inside `t`.
The empty string is a substring of every string, as in Python. -/
def isSub (p : List Char) : List Char → Bool
  | [] => p.isEmpty
  | c :: ts => leadsList p (c :: ts) || isSub p ts

/-- Split a character list on runs of whitespace, dropping empty pieces:
the model of Python's `str.split()` with no separator. -/
def wordsAux : List Char → List Char → List (List Char)
  | [], acc => if acc.isEmpty then [] else [acc.reverse]
  | c :: cs, acc =>
    if pySpace c then
      (if acc.isEmpty then wordsAux cs [] else acc.reverse :: wordsAux cs [])
    else wordsAux cs (c :: acc)

/-- Python `s.split()` as a list of words. -/
def pyWords (s : String) : List String :=
  (wordsAux s.toList []).map fun l => ⟨l⟩

/-- Python `' '.join ws`. -/
def joinSpace (ws : List String) : String :=
  String.intercalate " " ws

/-- Stable insertion of `a` into `l`: `a` is placed before the first
element `b` with `le a b`.  This is the small-array behaviour of
`numpy`'s ascending `argsort`. -/
def sInsert (le : α → α → Bool) (a : α) : List α → List α
  | [] => [a]
  | b :: l => if le a b then a :: b :: l else b :: sInsert le a l

/-- Stable ascending insertion sort. -/
def sSort (le : α → α → Bool) : List α → List α
  | [] => []
  | a :: l => sInsert le a (sSort le l)

theorem sInsert_perm (le : α → α → Bool) (a : α) (l : List α) :
    sInsert le a l ~ a :: l := by
  induction l with
  | nil => rfl
  | cons b l ih =>
    by_cases h : le a b = true
    · simp [sInsert, h]
    · simp only [sInsert, h, if_false]
      exact ((ih.cons b).trans (List.Perm.swap a b l))

theorem sSort_perm (le : α → α → Bool) (l : List α) : sSort le l ~ l := by
  induction l with
  | nil => rfl
  | cons a l ih => exact (sInsert_perm le a (sSort le l)).trans (ih.cons a)

theorem mem_sSort (le : α → α → Bool) {a : α} {l : List α} :
    a ∈ sSort le l ↔ a ∈ l :=
  (sSort_perm le l).mem_iff

theorem length_sSort (le : α → α → Bool) (l : List α) :
    (sSort le l).length = l.length :=
  (sSort_perm le l).length_eq

theorem sInsert_eq_takeWhile (le : α → α → Bool) (a : α) (l : List α) :
    sInsert le a l =
      l.takeWhile (fun b => !(le a b)) ++ a :: l.dropWhile (fun b => !(le a b)) := by
  induction l with
  | nil => rfl
  | cons b l ih =>
    by_cases h : le a b = true
    · simp [sInsert, List.takeWhile, List.dropWhile, h]
    · simp [sInsert, List.takeWhile, List.dropWhile, h, ih]

theorem sorted_sInsert (le : α → α → Bool)
    (htotal : ∀ a b, le a b = true ∨ le b a = true)
    (htrans : ∀ a b c, le a b = true → le b c = true → le a c = true)
    (a : α) (l : List α) (hl : l.Pairwise (fun x y => le x y = true)) :
    (sInsert le a l).Pairwise (fun x y => le x y = true) := by
  induction l with
  | nil => simp [sInsert]
  | cons b l ih =>
    rcases List.pairwise_cons.mp hl with ⟨hb, hl'⟩
    by_cases h : le a b = true
    · simp only [sInsert, h, if_true]
      refine List.pairwise_cons.mpr ⟨?_, hl⟩
      intro y hy
      rcases List.mem_cons.mp hy with rfl | hmem
      · exact h
      · exact htrans a b y h (hb _ hmem)
    · simp only [sInsert, h, if_false]
      refine List.pairwise_cons.mpr ⟨?_, ih hl'⟩
      intro y hy
      have hy' := (sInsert_perm le a l).mem_iff.mp hy
      rcases List.mem_cons.mp hy' with rfl | hmem
      · rcases htotal y b with h' | h'
        · exact absurd h' h
        · exact h'
      · exact hb _ hmem

theorem sorted_sSort (le : α → α → Bool)
    (htotal : ∀ a b, le a b = true ∨ le b a = true)
    (htrans : ∀ a b c, le a b = true → le b c = true → le a c = true)
    (l : List α) : (sSort le l).Pairwise (fun x y => le x y = true) := by
  induction l with
  | nil => simp [sSort]
  | cons a l ih => exact sorted_sInsert le htotal htrans a (sSort le l) ih

theorem sublist_of_append_of_not_mem {c t d : List α}
    (h : c <+ t ++ d) (hnot : ∀ x ∈ c, x ∉ t) : c <+ d := by
  induction t with
  | nil => simpa using h
  | cons b t ih =>
    cases h with
    | cons _ h => exact ih h (fun x hx => fun hm => hnot x hx (List.mem_cons_of_mem b hm))
    | cons₂ _ h =>
      exact absurd (List.mem_cons_self b t) (hnot b (List.mem_cons_self b _))

/-- Every list is a sublist of the result of inserting one more element. -/
theorem sublist_sInsert (le : α → α → Bool) (a : α) (l : List α) :
    l <+ sInsert le a l := by
  rw [sInsert_eq_takeWhile]
  calc l = l.takeWhile (fun b => !(le a b)) ++ l.dropWhile (fun b => !(le a b)) :=
        (List.takeWhile_append_dropWhile ..).symm
    _ <+ _ := List.Sublist.append_left (List.sublist_cons_self a _) _

/-- Stability of `sSort`: a sorted sublist of `l` is still a sublist of
`sSort le l`. -/
theorem sublist_sSort (le : α → α → Bool) :
    ∀ {l c : List α}, c <+ l → c.Pairwise (fun x y => le x y = true) →
      c <+ sSort le l := by
  intro l
  induction l with
  | nil =>
    intro c hc _
    have hc' : c = [] := by simpa using hc
    subst hc'
    exact List.nil_sublist _
  | cons a l ih =>
    intro c hc hsorted
    cases hc with
    | cons _ hc' =>
      exact (ih hc' hsorted).trans (sublist_sInsert le a (sSort le l))
    | cons₂ _ hc' =>
      rename_i c'
      rcases List.pairwise_cons.mp hsorted with ⟨ha, hsorted'⟩
      have h₁ : c' <+ sSort le l := ih hc' hsorted'
      show a :: c' <+ sInsert le a (sSort le l)
      rw [sInsert_eq_takeWhile]
      have h₃ : c' <+ (sSort le l).takeWhile (fun b => !(le a b)) ++
          (sSort le l).dropWhile (fun b => !(le a b)) := by
        rw [List.takeWhile_append_dropWhile]
        exact h₁
      have h₂ : c' <+ (sSort le l).dropWhile (fun b => !(le a b)) := by
        refine sublist_of_append_of_not_mem h₃ ?_
        intro x hx hmem
        have hpx := List.mem_takeWhile_imp hmem
        simp only [Bool.not_eq_true'] at hpx
        rw [ha x hx] at hpx
        cases hpx
      calc a :: c' <+ a :: (sSort le l).dropWhile (fun b => !(le a b)) :=
            h₂.cons₂ a
        _ <+ _ := List.sublist_append_right _ _

/-- A class of mutually tied elements is preserved verbatim by the stable
sort: filtering `sSort le l` by a predicate all of whose members are
mutually `le`-related gives exactly the filter of `l`. -/
theorem filter_sSort_of_tied (le : α → α → Bool) (p : α → Bool) (l : List α)
    (hp : ∀ x y, p x = true → p y = true → le x y = true) :
    (sSort le l).filter p = l.filter p := by
  have hpair : (l.filter p).Pairwise (fun x y => le x y = true) :=
    List.pairwise_of_forall_mem_list fun x hx y hy =>
      hp x y (List.of_mem_filter hx) (List.of_mem_filter hy)
  have hsub : l.filter p <+ sSort le l :=
    sublist_sSort le (List.filter_sublist l) hpair
  have hsub₂ : (l.filter p).filter p <+ (sSort le l).filter p :=
    List.Sublist.filter p hsub
  rw [List.filter_filter] at hsub₂
  have hself : l.filter (fun a => p a && p a) = l.filter p := by
    simp
  rw [hself] at hsub₂
  have hlen : ((sSort le l).filter p).length = (l.filter p).length :=
    ((sSort_perm le l).filter p).length_eq
  exact (List.Sublist.eq_of_length hsub₂ (hlen.symm)).symm

theorem le_fst_of_mem_enumFrom {n : ℕ} {l : List α} {x : ℕ × α}
    (h : x ∈ l.enumFrom n) : n ≤ x.1 := by
  induction l generalizing n with
  | nil => cases h
  | cons a l ih =>
    rcases List.mem_cons.mp h with rfl | hmem
    · exact Nat.le_refl n
    · exact Nat.le_of_succ_le (ih hmem)

theorem pairwise_fst_lt_enumFrom (n : ℕ) (l : List α) :
    (l.enumFrom n).Pairwise (fun x y => x.1 < y.1) := by
  induction l generalizing n with
  | nil => simp
  | cons a l ih =>
    refine List.pairwise_cons.mpr ⟨?_, ih (n + 1)⟩
    intro y hy
    exact Nat.lt_of_succ_le (le_fst_of_mem_enumFrom hy)

theorem pairwise_fst_lt_enum (l : List α) :
    l.enum.Pairwise (fun x y => x.1 < y.1) :=
  pairwise_fst_lt_enumFrom 0 l

theorem exists_mem_enumFrom {v : α} {l : List α} (h : v ∈ l) (n : ℕ) :
    ∃ i, (i, v) ∈ l.enumFrom n := by
  induction l generalizing n with
  | nil => cases h
  | cons a l ih =>
    rcases List.mem_cons.mp h with rfl | hmem
    · exact ⟨n, List.mem_cons_self _ _⟩
    · obtain ⟨i, hi⟩ := ih hmem (n + 1)
      exact ⟨i, List.mem_cons_of_mem _ hi⟩

theorem exists_mem_enum {v : α} {l : List α} (h : v ∈ l) :
    ∃ i, (i, v) ∈ l.enum :=
  exists_mem_enumFrom h 0

end ER

/-!
Embedding of `scripts/03_entity_resolution/12_singleton_phase1_features.py`:
the feature helpers `tokenize`, `token_jaccard`, `contains_match` and the
per-row top-K candidate selection of `find_top_k_candidates`
(lines 139-140: `np.argpartition` followed by `np.argsort` of the selected
similarities and a `[::-1]` reversal).
-/

namespace Phase1

open ER List

/-- Line 43-45: `set(s.lower().split())`. -/
def tokenize (s : String) : Finset String :=
  (pyWords (pyLower s)).toFinset

/-- Lines 48-56: Jaccard similarity on word-token sets; 0 when either
token set is empty or when the union is empty. -/
def token_jaccard (a b : String) : ℚ :=
  let ta := tokenize a
  let tb := tokenize b
  if ta = ∅ ∨ tb = ∅ then 0
  else
    let i := (ta ∩ tb).card
    let u := (ta ∪ tb).card
    if 0 < u then (i : ℚ) / (u : ℚ) else 0

/-- Lines 59-63: case-insensitive bidirectional substring containment.
Python's `in` counts the empty string as a substring of everything. -/
def contains_match (a b : String) : Bool :=
  isSub (pyLower a).data (pyLower b).data ||
    isSub (pyLower b).data (pyLower a).data

/-- Comparison on `(original index, similarity)` pairs by similarity. -/
def leSnd [LinearOrder β] (x y : ℕ × β) : Bool := decide (x.2 ≤ y.2)

/-- Lines 139-140 of `12_singleton_phase1_features.py` (and lines 294-295
of `20_tiered_entity_resolution.py`): select the top-`k` entries of one
similarity row.  The code ascending-argsorts the candidate similarities
(stable for the small arrays our statements use) and then reverses the
index array wholesale with `[::-1]`, so ties come out with the *larger*
original index first. -/
def find_top_k_row [LinearOrder β] (row : List β) (k : ℕ) : List (ℕ × β) :=
  ((sSort leSnd row.enum).reverse).take k

theorem leSnd_total [LinearOrder β] (x y : ℕ × β) :
    leSnd x y = true ∨ leSnd y x = true := by
  simp only [leSnd, decide_eq_true_eq]
  exact le_total x.2 y.2

theorem leSnd_trans [LinearOrder β] (x y z : ℕ × β) :
    leSnd x y = true → leSnd y z = true → leSnd x z = true := by
  simp only [leSnd, decide_eq_true_eq]
  exact le_trans

theorem sorted_sSort_enum [LinearOrder β] (row : List β) :
    (sSort leSnd row.enum).Pairwise (fun x y : ℕ × β => x.2 ≤ y.2) := by
  have h := sorted_sSort leSnd leSnd_total leSnd_trans row.enum
  exact h.imp (fun hxy => by simpa [leSnd] using hxy)

/-- Among mutually tied entries the stable ascending sort keeps the
original (index) order. -/
theorem tie_index_sSort_enum [LinearOrder β] (row : List β) :
    (sSort leSnd row.enum).Pairwise
      (fun x y : ℕ × β => x.2 = y.2 → x.1 < y.1) := by
  rw [List.pairwise_iff_forall_sublist]
  intro x y hsub hxy
  have hp : ∀ u w : ℕ × β, decide (u.2 = x.2) = true →
      decide (w.2 = x.2) = true → leSnd u w = true := by
    intro u w hu hw
    simp only [decide_eq_true_eq] at hu hw
    simp [leSnd, hu, hw]
  have hfx : List.filter (fun z : ℕ × β => decide (z.2 = x.2)) [x, y] = [x, y] := by
    simp [List.filter, hxy]
  have h1 : [x, y] <+
      (sSort leSnd row.enum).filter (fun z : ℕ × β => decide (z.2 = x.2)) := by
    have := hsub.filter (fun z : ℕ × β => decide (z.2 = x.2))
    rwa [hfx] at this
  rw [ER.filter_sSort_of_tied leSnd (fun z : ℕ × β => decide (z.2 = x.2))
    row.enum hp] at h1
  have h2 : (row.enum.filter (fun z : ℕ × β => decide (z.2 = x.2))).Pairwise
      (fun a b : ℕ × β => a.1 < b.1) :=
    (pairwise_fst_lt_enum row).filter _
  exact List.pairwise_iff_forall_sublist.mp h2 h1

theorem reverse_sSort_desc [LinearOrder β] (row : List β) :
    ((sSort leSnd row.enum).reverse).Pairwise (fun x y : ℕ × β => y.2 ≤ x.2) := by
  rw [List.pairwise_reverse]
  exact sorted_sSort_enum row

theorem reverse_sSort_tie [LinearOrder β] (row : List β) :
    ((sSort leSnd row.enum).reverse).Pairwise
      (fun x y : ℕ × β => x.2 = y.2 → y.1 < x.1) := by
  rw [List.pairwise_reverse]
  exact (tie_index_sSort_enum row).imp (fun h heq => h heq.symm)

end Phase1

/-- C4 (amended).  For every source row, the top-K candidate list returned
by `find_top_k_candidates`' per-row selection is sorted in descending order
of similarity, the rank-1 candidate attains the maximum similarity of the
whole row, ranks form a dense `1..min K n` sequence (the list positions),
and ties in similarity appear in order of *descending* original target
index: the code ascending-argsorts and then reverses the whole index array
(`[::-1]`), so among tied candidates the larger original index comes
first, not the smaller one as the original claim stated. -/
theorem C4_amended [LinearOrder β] (row : List β) (k : ℕ) :
    (Phase1.find_top_k_row row k).Pairwise (fun x y => y.2 ≤ x.2) ∧
    (Phase1.find_top_k_row row k).length = min k row.length ∧
    (1 ≤ k → row ≠ [] →
      ∃ m, (Phase1.find_top_k_row row k).head? = some m ∧ ∀ v ∈ row, v ≤ m.2) ∧
    (Phase1.find_top_k_row row k).Pairwise (fun x y => x.2 = y.2 → y.1 < x.1) := by
  refine ⟨?_, ?_, ?_, ?_⟩
  · exact (Phase1.reverse_sSort_desc row).sublist (List.take_sublist _ _)
  · simp [Phase1.find_top_k_row, ER.length_sSort]
  · intro hk hrow
    have hlen : (ER.sSort Phase1.leSnd row.enum).reverse.length = row.length := by
      simp [ER.length_sSort]
    have hne : (ER.sSort Phase1.leSnd row.enum).reverse ≠ [] := by
      intro h
      rw [h] at hlen
      exact hrow (List.eq_nil_of_length_eq_zero hlen.symm)
    obtain ⟨m, t, hmt⟩ := List.exists_cons_of_ne_nil hne
    obtain ⟨k', rfl⟩ := Nat.exists_eq_add_of_le hk
    refine ⟨m, ?_, ?_⟩
    · simp [Phase1.find_top_k_row, hmt, Nat.add_comm 1 k', List.take_succ_cons]
    · intro v hv
      obtain ⟨i, hi⟩ := ER.exists_mem_enum hv
      have hmem : (i, v) ∈ (ER.sSort Phase1.leSnd row.enum).reverse := by
        rw [List.mem_reverse, ER.mem_sSort]
        exact hi
      have hdesc := Phase1.reverse_sSort_desc row
      rw [hmt] at hdesc hmem
      rcases List.mem_cons.mp hmem with heq | hmem'
      · rw [← heq]
      · exact (List.pairwise_cons.mp hdesc).1 _ hmem'
  · exact (Phase1.reverse_sSort_tie row).sublist (List.take_sublist _ _)

/-- C4 witness: the amended theorem applied to the concrete row
`[0.0, 1.0, 1.0]` with `k = 3`. -/
theorem C4_witness :
    ∃ m, (Phase1.find_top_k_row ([0, 1, 1] : List ℚ) 3).head? = some m ∧
      ∀ v ∈ ([0, 1, 1] : List ℚ), v ≤ m.2 :=
  (C4_amended ([0, 1, 1] : List ℚ) 3).2.2.1 (by decide) (by decide)

/-- C4 counterexample: on the similarity row `[0.0, 1.0, 1.0]` with
`k = 3` the two tied candidates (original target indices 1 and 2,
similarity 1.0) are returned with index 2 *first*, so ties are not broken
by ascending original target index as the claim states. -/
theorem C4_counterexample :
    Phase1.find_top_k_row ([0, 1, 1] : List ℚ) 3 =
      [(2, 1), (1, 1), (0, 0)] ∧
    ¬ (Phase1.find_top_k_row ([0, 1, 1] : List ℚ) 3).Pairwise
        (fun x y => x.2 = y.2 → x.1 < y.1) := by
  constructor
  · decide
  · decide

/-!
Embedding of `jellyfish.jaro_winkler_similarity`, following the reference
implementation shipped with jellyfish (`_jellyfish.py`): return 0 if
either string is empty; flag matching characters inside the search
window; if no character matches return 0; count transpositions between
the flagged characters of both strings; combine into the Jaro weight; and
apply the Winkler common-prefix boost (prefix length capped at 4) when
the weight exceeds 0.7.
-/

namespace Jelly

/-- `search_range = max(len1, len2) // 2 - 1`, clamped at 0 (the clamp is
Nat subtraction here). -/
def searchRange (l1 l2 : ℕ) : ℕ := max l1 l2 / 2 - 1

/-- Scan the window `[low, hi]` of `s2` for the first unflagged position
holding character `c`.  Out-of-range positions read as flagged (`true`),
so a returned index is always in range. -/
def findJ (flags : List Bool) (s2 : List Char) (c : Char) (low hi : ℕ) :
    Option ℕ :=
  (List.range' low (hi + 1 - low)).find?
    (fun j => !(flags.getD j true) && (s2.getD j ' ' == c))

/-- The matching phase: walk the indexed characters of `s1`, flagging at
most one position of `s2` per character; return the matched index pairs
(in `s1` order) and the final flag vector of `s2`. -/
def scanA (s2 : List Char) (sr : ℕ) :
    List (ℕ × Char) → List Bool → List (ℕ × ℕ) × List Bool
  | [], flags => ([], flags)
  | (i, c) :: rest, flags =>
    match findJ flags s2 c (i - sr)
        (if i + sr < s2.length then i + sr else s2.length - 1) with
    | some j =>
      let r := scanA s2 sr rest (flags.set j true)
      ((i, j) :: r.1, r.2)
    | none => scanA s2 sr rest flags

/-- Indices of `true` flags, in ascending order. -/
def trueIdx (flags : List Bool) : List ℕ :=
  (flags.enum.filter (fun p => p.2)).map (fun p => p.1)

/-- Number of `true` entries. -/
def countTrue (l : List Bool) : ℕ := l.countP (fun b => b)

/-- The Jaro similarity of two non-empty character lists. -/
def jaroCore (s1 s2 : List Char) : ℚ :=
  let l1 := s1.length
  let l2 := s2.length
  let sr := searchRange l1 l2
  let res := scanA s2 sr s1.enum (List.replicate l2 false)
  let m := res.1.length
  if m = 0 then 0
  else
    let js := trueIdx res.2
    let is := res.1.map (fun p => p.1)
    let traw := (is.zip js).countP
      (fun p => !(s1.getD p.1 ' ' == s2.getD p.2 ' '))
    let t := traw / 2
    ((m : ℚ) / l1 + (m : ℚ) / l2 + ((m : ℚ) - (t : ℚ)) / m) / 3

/-- Length of the common starting run of the two strings, capped at 4. -/
def commonStart4 (s1 s2 : List Char) : ℕ :=
  min (((s1.zip s2).takeWhile (fun p => p.1 == p.2)).length) 4

/-- `jellyfish.jaro_winkler_similarity` on two character lists. -/
def jwList (s1 s2 : List Char) : ℚ :=
  if s1.length = 0 ∨ s2.length = 0 then 0
  else
    let w := jaroCore s1 s2
    if 7/10 < w then
      let l := commonStart4 s1 s2
      w + (l : ℚ) * (1/10) * (1 - w)
    else w

/-- `jellyfish.jaro_winkler_similarity` on two strings. -/
def jaro_winkler_similarity (a b : String) : ℚ :=
  jwList a.toList b.toList

theorem countTrue_le_length (l : List Bool) : countTrue l ≤ l.length :=
  List.countP_le_length _

theorem getD_false_lt_length {l : List Bool} {j : ℕ}
    (h : l.getD j true = false) : j < l.length := by
  by_contra hj
  rw [List.getD_eq_default l true (Nat.le_of_not_lt hj)] at h
  cases h

theorem countTrue_set_true : ∀ (l : List Bool) (j : ℕ),
    l.getD j true = false → countTrue (l.set j true) = countTrue l + 1 := by
  intro l
  induction l with
  | nil =>
    intro j h
    rw [List.getD_eq_default [] true (Nat.zero_le j)] at h
    cases h
  | cons b t ih =>
    intro j h
    cases j with
    | zero =>
      simp only [List.getD_cons_zero] at h
      subst h
      simp [countTrue, List.countP_cons]
    | succ j =>
      simp only [List.getD_cons_succ] at h
      simp only [List.set_cons_succ, countTrue, List.countP_cons]
      have := ih j h
      simp only [countTrue] at this
      omega

theorem findJ_some {flags : List Bool} {s2 : List Char} {c : Char}
    {low hi j : ℕ} (h : findJ flags s2 c low hi = some j) :
    flags.getD j true = false := by
  have hp := List.find?_some h
  simp only [Bool.and_eq_true, Bool.not_eq_true'] at hp
  exact hp.1

theorem scanA_length_le (s2 : List Char) (sr : ℕ) :
    ∀ (l : List (ℕ × Char)) (flags : List Bool),
      (scanA s2 sr l flags).1.length ≤ l.length := by
  intro l
  induction l with
  | nil => intro flags; simp [scanA]
  | cons ic rest ih =>
    intro flags
    obtain ⟨i, c⟩ := ic
    simp only [scanA]
    cases hfind : findJ flags s2 c (i - sr)
        (if i + sr < s2.length then i + sr else s2.length - 1) with
    | none =>
      exact Nat.le_succ_of_le (ih flags)
    | some j =>
      simpa using Nat.succ_le_succ (ih (flags.set j true))

theorem scanA_count (s2 : List Char) (sr : ℕ) :
    ∀ (l : List (ℕ × Char)) (flags : List Bool),
      (scanA s2 sr l flags).1.length + countTrue flags ≤ flags.length := by
  intro l
  induction l with
  | nil => intro flags; simpa [scanA] using countTrue_le_length flags
  | cons ic rest ih =>
    intro flags
    obtain ⟨i, c⟩ := ic
    simp only [scanA]
    cases hfind : findJ flags s2 c (i - sr)
        (if i + sr < s2.length then i + sr else s2.length - 1) with
    | none => exact ih flags
    | some j =>
      have hflag := findJ_some hfind
      have hcount := countTrue_set_true flags j hflag
      have hlen : (flags.set j true).length = flags.length := List.length_set ..
      have := ih (flags.set j true)
      rw [hcount, hlen] at this
      simp only [List.length_cons]
      omega

theorem countTrue_replicate_false (n : ℕ) :
    countTrue (List.replicate n false) = 0 := by
  induction n with
  | zero => rfl
  | succ n _ => simp [countTrue, List.replicate_succ, List.countP_cons]

/-- The number of matched pairs is at most the length of either string. -/
theorem jaro_m_le (s1 s2 : List Char) :
    (scanA s2 (searchRange s1.length s2.length) s1.enum
        (List.replicate s2.length false)).1.length ≤ s1.length ∧
    (scanA s2 (searchRange s1.length s2.length) s1.enum
        (List.replicate s2.length false)).1.length ≤ s2.length := by
  constructor
  · simpa using scanA_length_le s2 (searchRange s1.length s2.length) s1.enum
      (List.replicate s2.length false)
  · have := scanA_count s2 (searchRange s1.length s2.length) s1.enum
      (List.replicate s2.length false)
    rw [countTrue_replicate_false] at this
    simpa using this

theorem jaroCore_nonneg (s1 s2 : List Char) : 0 ≤ jaroCore s1 s2 := by
  unfold jaroCore
  by_cases hm : (scanA s2 (searchRange s1.length s2.length) s1.enum
      (List.replicate s2.length false)).1.length = 0
  · simp [hm]
  · simp only [hm, if_false]
    set res := scanA s2 (searchRange s1.length s2.length) s1.enum
      (List.replicate s2.length false) with hres
    set m := res.1.length with hmdef
    set traw := ((res.1.map (fun p => p.1)).zip (trueIdx res.2)).countP
      (fun p => !(s1.getD p.1 ' ' == s2.getD p.2 ' ')) with htraw
    have hm1 : 1 ≤ m := Nat.one_le_iff_ne_zero.mpr hm
    have h1 : traw ≤ ((res.1.map (fun p => p.1)).zip (trueIdx res.2)).length :=
      List.countP_le_length _
    have h2 : traw ≤ m := by
      refine le_trans h1 ?_
      rw [List.length_zip]
      simp
    have htm : traw / 2 ≤ m := le_trans (Nat.div_le_self _ _) h2
    have hq : (0 : ℚ) < (m : ℚ) := by exact_mod_cast hm1
    have ha1 : (0 : ℚ) ≤ (m : ℚ) / s1.length :=
      div_nonneg (by positivity) (by positivity)
    have ha2 : (0 : ℚ) ≤ (m : ℚ) / s2.length :=
      div_nonneg (by positivity) (by positivity)
    have ha3 : (0 : ℚ) ≤ ((m : ℚ) - (traw / 2 : ℕ)) / m := by
      apply div_nonneg _ (le_of_lt hq)
      have : ((traw / 2 : ℕ) : ℚ) ≤ (m : ℚ) := by exact_mod_cast htm
      linarith
    linarith

theorem jaroCore_le_one (s1 s2 : List Char) : jaroCore s1 s2 ≤ 1 := by
  unfold jaroCore
  by_cases hm : (scanA s2 (searchRange s1.length s2.length) s1.enum
      (List.replicate s2.length false)).1.length = 0
  · simp [hm]
  · simp only [hm, if_false]
    set res := scanA s2 (searchRange s1.length s2.length) s1.enum
      (List.replicate s2.length false) with hres
    set m := res.1.length with hmdef
    set traw := ((res.1.map (fun p => p.1)).zip (trueIdx res.2)).countP
      (fun p => !(s1.getD p.1 ' ' == s2.getD p.2 ' ')) with htraw
    have hm1 : 1 ≤ m := Nat.one_le_iff_ne_zero.mpr hm
    have hle := jaro_m_le s1 s2
    rw [← hres] at hle
    have hl1 : m ≤ s1.length := hle.1
    have hl2 : m ≤ s2.length := hle.2
    have hq : (0 : ℚ) < (m : ℚ) := by exact_mod_cast hm1
    have hq1 : (0 : ℚ) < (s1.length : ℚ) := by
      exact_mod_cast Nat.lt_of_lt_of_le hm1 hl1
    have hq2 : (0 : ℚ) < (s2.length : ℚ) := by
      exact_mod_cast Nat.lt_of_lt_of_le hm1 hl2
    have h1 : (m : ℚ) / s1.length ≤ 1 :=
      (div_le_one hq1).mpr (by exact_mod_cast hl1)
    have h2 : (m : ℚ) / s2.length ≤ 1 :=
      (div_le_one hq2).mpr (by exact_mod_cast hl2)
    have h3 : ((m : ℚ) - (traw / 2 : ℕ)) / m ≤ 1 := by
      apply (div_le_one hq).mpr
      have : (0 : ℚ) ≤ ((traw / 2 : ℕ) : ℚ) := by positivity
      linarith
    linarith

theorem jwList_nonneg (s1 s2 : List Char) : 0 ≤ jwList s1 s2 := by
  unfold jwList
  by_cases h : s1.length = 0 ∨ s2.length = 0
  · rw [if_pos h]
  · simp only [h, if_false]
    have hw0 := jaroCore_nonneg s1 s2
    have hw1 := jaroCore_le_one s1 s2
    by_cases hb : (7 : ℚ)/10 < jaroCore s1 s2
    · simp only [hb, if_true]
      have : (0 : ℚ) ≤ (commonStart4 s1 s2 : ℚ) * (1/10) *
          (1 - jaroCore s1 s2) := by
        apply mul_nonneg (mul_nonneg (by positivity) (by norm_num))
        linarith
      linarith
    · simpa [hb] using hw0

theorem jwList_le_one (s1 s2 : List Char) : jwList s1 s2 ≤ 1 := by
  unfold jwList
  by_cases h : s1.length = 0 ∨ s2.length = 0
  · rw [if_pos h]
    norm_num
  · simp only [h, if_false]
    have hw1 := jaroCore_le_one s1 s2
    by_cases hb : (7 : ℚ)/10 < jaroCore s1 s2
    · simp only [hb, if_true]
      have hc4 : (commonStart4 s1 s2 : ℚ) ≤ 4 := by
        exact_mod_cast Nat.min_le_right
          ((s1.zip s2).takeWhile (fun p => p.1 == p.2)).length 4
      have hc0 : (0 : ℚ) ≤ (commonStart4 s1 s2 : ℚ) := by positivity
      set w := jaroCore s1 s2
      set c := (commonStart4 s1 s2 : ℚ)
      have h1 : c * (1/10) * (1 - w) ≤ 1 * (1 - w) := by
        apply mul_le_mul_of_nonneg_right _ (by linarith)
        linarith
      linarith
    · simpa [hb] using hw1

theorem jaro_winkler_nonneg (a b : String) :
    0 ≤ jaro_winkler_similarity a b :=
  jwList_nonneg a.toList b.toList

theorem jaro_winkler_le_one (a b : String) :
    jaro_winkler_similarity a b ≤ 1 :=
  jwList_le_one a.toList b.toList

/-- Either argument empty gives similarity 0 (the jellyfish
short-circuit). -/
theorem jaro_winkler_empty (a b : String)
    (h : a = "" ∨ b = "") : jaro_winkler_similarity a b = 0 := by
  unfold jaro_winkler_similarity jwList
  rcases h with rfl | rfl
  · simp
  · simp

end Jelly

/-!
Embedding of `scripts/03_entity_resolution/15_singleton_phase4_predict.py`:
the name normalizer (lines 29-58), `normalized_jaro_winkler` (lines
61-67), and the best-match-per-POI-name selection of `main` (lines
149-160).  The normalizer applies, in order: lower-casing; one pass of
anchored legal-suffix regexes; one global pass per professional-title
regex; punctuation-to-space; whitespace collapse; strip.
-/

namespace Phase4

open ER

/-- ASCII model of the regex word class `\w`. -/
def pyIsWordChar (c : Char) : Bool := c.isAlphanum || c = '_'

/-- One atom of the title regexes: a literal character, `\s*`, or `\.?`. -/
inductive RAtom where
  | lit (c : Char)
  | ws
  | dot
deriving DecidableEq

/-- Fuel-driven greedy backtracking matcher for a sequence of `RAtom`s at
the start of the input; returns the input remaining after the match.
`\s*` and `\.?` are greedy and backtrack, as in Python `re`.  The fuel
`atoms.length + s.length + 1` used by `matchAtoms` always suffices, since
every recursive call shrinks `atoms.length + s.length`. -/
def matchAtomsF : ℕ → List RAtom → List Char → Option (List Char)
  | 0, _, _ => none
  | _ + 1, [], s => some s
  | f + 1, .lit c :: rest, s =>
    match s with
    | x :: xs => if x == c then matchAtomsF f rest xs else none
    | [] => none
  | f + 1, .dot :: rest, s =>
    match s with
    | '.' :: xs =>
      (match matchAtomsF f rest xs with
       | some r => some r
       | none => matchAtomsF f rest s)
    | _ => matchAtomsF f rest s
  | f + 1, .ws :: rest, s =>
    match s with
    | x :: xs =>
      if pySpace x then
        match matchAtomsF f (.ws :: rest) xs with
        | some r => some r
        | none => matchAtomsF f rest s
      else matchAtomsF f rest s
    | [] => matchAtomsF f rest s

/-- Match a title regex at the start of `s`. -/
def matchAtoms (atoms : List RAtom) (s : List Char) : Option (List Char) :=
  matchAtomsF (atoms.length + s.length + 1) atoms s

/-- Global leftmost non-overlapping substitution (`re.sub`): scan left to
right, replace each match, continue after it. -/
def subAllF (atoms : List RAtom) (rep : List Char) : ℕ → List Char → List Char
  | 0, s => s
  | _ + 1, [] => []
  | f + 1, c :: rest =>
    match matchAtoms atoms (c :: rest) with
    | some r =>
      if r.length < (c :: rest).length then rep ++ subAllF atoms rep f r
      else c :: subAllF atoms rep f rest
    | none => c :: subAllF atoms rep f rest

def subAll (atoms : List RAtom) (rep : List Char) (s : List Char) : List Char :=
  subAllF atoms rep (s.length + 1) s

/-- One anchored suffix regex `\s+word\.?$` (or `\s+word$` when
`optDot = false`): if the string ends with the word (optionally followed
by one dot when allowed), preceded by at least one whitespace character,
remove the word, the optional dot, and the whole contiguous whitespace
run before it; otherwise return the string unchanged. -/
def stripSuffix1 (word : List Char) (optDot : Bool) (s : List Char) :
    List Char :=
  let r := s.reverse
  let r1 := if optDot then
      (match r with
       | '.' :: rest => rest
       | _ => r)
    else r
  let wrev := word.reverse
  if leadsList wrev r1 then
    let rest := r1.drop wrev.length
    let rest2 := rest.dropWhile pySpace
    if rest2.length < rest.length then rest2.reverse else s
  else s

/-- The leading-article regex `^the\s+`. -/
def stripLeadThe (s : List Char) : List Char :=
  if leadsList ['t', 'h', 'e'] s then
    let rest := s.drop 3
    let rest2 := rest.dropWhile pySpace
    if rest2.length < rest.length then rest2 else s
  else s

/-- The 14 suffix regexes of lines 36-43, applied in the listed order
(each `re.sub` is applied once; the loop does not restart). -/
def applySuffixes (s : List Char) : List Char :=
  let s := stripSuffix1 ['i', 'n', 'c'] true s
  let s := stripSuffix1 ['l', 'l', 'c'] true s
  let s := stripSuffix1 ['c', 'o', 'r', 'p'] true s
  let s := stripSuffix1 ['c', 'o'] true s
  let s := stripSuffix1 ['l', 't', 'd'] true s
  let s := stripSuffix1 ['l', 'l', 'p'] true s
  let s := stripSuffix1 ['p', 'l', 'l', 'c'] true s
  let s := stripSuffix1 ['p', 'c'] true s
  let s := stripSuffix1 ['i', 'n', 'c', 'o', 'r', 'p', 'o', 'r', 'a', 't', 'e', 'd'] false s
  let s := stripSuffix1 ['c', 'o', 'r', 'p', 'o', 'r', 'a', 't', 'i', 'o', 'n'] false s
  let s := stripSuffix1 ['c', 'o', 'm', 'p', 'a', 'n', 'y'] false s
  let s := stripSuffix1 ['l', 'i', 'm', 'i', 't', 'e', 'd'] false s
  let s := stripSuffix1 ['t', 'h', 'e'] false s
  stripLeadThe s

/-- `r'd\s*\.?\s*d\s*\.?\s*s\.?'`. -/
def patDDS : List RAtom :=
  [.lit 'd', .ws, .dot, .ws, .lit 'd', .ws, .dot, .ws, .lit 's', .dot]

/-- `r'm\s*\.?\s*d\.?'`. -/
def patMD : List RAtom := [.lit 'm', .ws, .dot, .ws, .lit 'd', .dot]

/-- `r'o\s*\.?\s*d\.?'`. -/
def patOD : List RAtom := [.lit 'o', .ws, .dot, .ws, .lit 'd', .dot]

/-- `r'd\s*\.?\s*o\.?'`. -/
def patDO : List RAtom := [.lit 'd', .ws, .dot, .ws, .lit 'o', .dot]

/-- `r'ph\s*\.?\s*d\.?'`. -/
def patPHD : List RAtom :=
  [.lit 'p', .lit 'h', .ws, .dot, .ws, .lit 'd', .dot]

/-- The title-canonicalization substitutions of lines 45-53, in order. -/
def applyTitles (s : List Char) : List Char :=
  let s := subAll patDDS ['d', 'd', 's'] s
  let s := subAll patMD ['m', 'd'] s
  let s := subAll patOD ['o', 'd'] s
  let s := subAll patDO ['d', 'o'] s
  subAll patPHD ['p', 'h', 'd'] s

/-- Line 55: `re.sub(r'[^\w\s]', ' ', s)`. -/
def punctToSpace (s : List Char) : List Char :=
  s.map (fun c => if pyIsWordChar c || pySpace c then c else ' ')

/-- Python `s.strip()` on a character list. -/
def pyStripC (s : List Char) : List Char :=
  ((s.dropWhile pySpace).reverse.dropWhile pySpace).reverse

/-- Python `' '.join ws` on character lists. -/
def joinSp : List (List Char) → List Char
  | [] => []
  | [w] => w
  | w :: rest => w ++ ' ' :: joinSp rest

/-- Lines 55-58: punctuation to spaces, whitespace collapse
(`' '.join(s.split())`), and the final `strip`. -/
def cleanupC (s : List Char) : List Char :=
  pyStripC (joinSp (wordsAux (punctToSpace s) []))

/-- The canonical-form stage of `normalize_name` on strings. -/
def cleanup (s : String) : String := ⟨cleanupC s.toList⟩

theorem cleanup_mk (l : List Char) : cleanup ⟨l⟩ = ⟨cleanupC l⟩ := rfl

/-- Lines 29-58: `normalize_name`. -/
def normalize_name (name : String) : String :=
  if name = "" then ""
  else ⟨cleanupC (applyTitles (applySuffixes (pyLower name).data))⟩

/-- Lines 61-67: Jaro-Winkler on normalized names, 0 when either
normalized name is empty. -/
def normalized_jaro_winkler (a b : String) : ℚ :=
  let an := normalize_name a
  let bn := normalize_name b
  if an = "" ∨ bn = "" then 0
  else Jelly.jaro_winkler_similarity an bn

theorem words_nonempty : ∀ (s acc : List Char), ∀ w ∈ wordsAux s acc, w ≠ [] := by
  intro s
  induction s with
  | nil =>
    intro acc w hw
    cases acc with
    | nil => simp [wordsAux] at hw
    | cons a t =>
      simp only [wordsAux, List.isEmpty_cons, if_false, Bool.false_eq_true,
        List.mem_singleton] at hw
      subst hw
      simp
  | cons c cs ih =>
    intro acc w hw
    simp only [wordsAux] at hw
    by_cases hc : pySpace c = true
    · rw [if_pos hc] at hw
      cases acc with
      | nil =>
        simp only [List.isEmpty_nil, if_true] at hw
        exact ih [] w hw
      | cons a t =>
        simp only [List.isEmpty_cons, Bool.false_eq_true, if_false,
          List.mem_cons] at hw
        rcases hw with heq | hmem
        · subst heq; simp
        · exact ih [] w hmem
    · rw [if_neg hc] at hw
      exact ih (c :: acc) w hw

theorem words_chars (q : Char → Bool) :
    ∀ (s acc : List Char),
      (∀ c ∈ s, pySpace c = false → q c = true) → (∀ c ∈ acc, q c = true) →
      ∀ w ∈ wordsAux s acc, ∀ c ∈ w, q c = true := by
  intro s
  induction s with
  | nil =>
    intro acc _ hacc w hw c hc
    cases acc with
    | nil => simp [wordsAux] at hw
    | cons a t =>
      simp only [wordsAux, List.isEmpty_cons, Bool.false_eq_true, if_false,
        List.mem_singleton] at hw
      subst hw
      exact hacc c (List.mem_reverse.mp hc)
  | cons c0 cs ih =>
    intro acc hs hacc w hw c hc
    simp only [wordsAux] at hw
    have hs' : ∀ c ∈ cs, pySpace c = false → q c = true :=
      fun x hx => hs x (List.mem_cons_of_mem _ hx)
    by_cases hc0 : pySpace c0 = true
    · rw [if_pos hc0] at hw
      cases acc with
      | nil =>
        simp only [List.isEmpty_nil, if_true] at hw
        exact ih [] hs' (by simp) w hw c hc
      | cons a t =>
        simp only [List.isEmpty_cons, Bool.false_eq_true, if_false,
          List.mem_cons] at hw
        rcases hw with heq | hmem
        · subst heq
          exact hacc c (List.mem_reverse.mp hc)
        · exact ih [] hs' (by simp) w hmem c hc
    · rw [if_neg hc0] at hw
      have hacc' : ∀ x ∈ c0 :: acc, q x = true := by
        intro x hx
        rcases List.mem_cons.mp hx with rfl | hx
        · exact hs x (List.mem_cons_self _ _) (by simpa using hc0)
        · exact hacc x hx
      exact ih (c0 :: acc) hs' hacc' w hw c hc

theorem words_no_space (s : List Char) :
    ∀ w ∈ wordsAux s [], ∀ c ∈ w, pySpace c = false := by
  intro w hw c hc
  have := words_chars (fun c => !pySpace c) s []
    (fun c _ h => by simpa using h) (by simp) w hw c hc
  simpa using this

theorem joinSp_ne_nil : ∀ {ws : List (List Char)}, ws ≠ [] →
    (∀ w ∈ ws, w ≠ []) → joinSp ws ≠ [] := by
  intro ws hws hne
  match ws with
  | [] => exact absurd rfl hws
  | [w] =>
    simpa [joinSp] using hne w (List.mem_singleton_self w)
  | w :: w' :: rest =>
    simp only [joinSp]
    intro h
    rcases List.append_eq_nil.mp h with ⟨_, h2⟩
    cases h2

theorem wordsAux_word_append {w : List Char}
    (hw : ∀ c ∈ w, pySpace c = false) (r acc : List Char) :
    wordsAux (w ++ r) acc = wordsAux r (w.reverse ++ acc) := by
  induction w generalizing acc with
  | nil => simp
  | cons c w' ih =>
    have hc : pySpace c = false := hw c (List.mem_cons_self _ _)
    have hw' : ∀ x ∈ w', pySpace x = false :=
      fun x hx => hw x (List.mem_cons_of_mem _ hx)
    show wordsAux (c :: (w' ++ r)) acc = _
    simp only [wordsAux, hc, Bool.false_eq_true, if_false]
    rw [ih hw' (c :: acc)]
    simp

theorem wordsAux_joinSp : ∀ (ws : List (List Char)),
    (∀ w ∈ ws, w ≠ []) → (∀ w ∈ ws, ∀ c ∈ w, pySpace c = false) →
    wordsAux (joinSp ws) [] = ws := by
  intro ws
  induction ws with
  | nil => intro _ _; rfl
  | cons w rest ih =>
    intro hne hsp
    have hwne : w ≠ [] := hne w (List.mem_cons_self _ _)
    have hwsp : ∀ c ∈ w, pySpace c = false :=
      hsp w (List.mem_cons_self _ _)
    obtain ⟨a, t, rfl⟩ := List.exists_cons_of_ne_nil hwne
    cases rest with
    | nil =>
      show wordsAux (joinSp [a :: t]) [] = [a :: t]
      simp only [joinSp]
      have h1 := wordsAux_word_append hwsp [] []
      rw [List.append_nil] at h1
      rw [h1]
      simp [wordsAux]
    | cons w' rest' =>
      have hne' : ∀ x ∈ w' :: rest', x ≠ [] :=
        fun x hx => hne x (List.mem_cons_of_mem _ hx)
      have hsp' : ∀ x ∈ w' :: rest', ∀ c ∈ x, pySpace c = false :=
        fun x hx => hsp x (List.mem_cons_of_mem _ hx)
      show wordsAux ((a :: t) ++ ' ' :: joinSp (w' :: rest')) [] = _
      rw [wordsAux_word_append hwsp]
      rw [List.append_nil]
      show wordsAux (' ' :: joinSp (w' :: rest')) ((a :: t).reverse) = _
      simp only [wordsAux, pySpace]
      have hrev : ((a :: t).reverse).isEmpty = false := by
        simp [List.isEmpty_iff]
      rw [if_pos (by norm_num), hrev]
      simp only [Bool.false_eq_true, if_false, List.reverse_reverse]
      rw [ih hne' hsp']

theorem dropWhile_eq_self_of_all {p : Char → Bool} {l : List Char}
    (h : ∀ c ∈ l, p c = false) : l.dropWhile p = l := by
  cases l with
  | nil => rfl
  | cons c t =>
    rw [List.dropWhile_cons]
    simp [h c (List.mem_cons_self _ _)]

theorem dropWhile_head_false {p : Char → Bool} {d : Char} {t : List Char}
    (h : (d :: t).dropWhile p = d :: t) : p d = false := by
  by_cases hd : p d = true
  · rw [List.dropWhile_cons, if_pos hd] at h
    have hle := (List.dropWhile_sublist (l := t) p).length_le
    rw [h] at hle
    simp at hle
  · simpa using hd

theorem dropWhile_joinSp : ∀ (ws : List (List Char)),
    (∀ w ∈ ws, w ≠ []) → (∀ w ∈ ws, ∀ c ∈ w, pySpace c = false) →
    (joinSp ws).dropWhile pySpace = joinSp ws := by
  intro ws hne hsp
  match ws with
  | [] => rfl
  | [w] =>
    apply dropWhile_eq_self_of_all
    intro c hc
    exact hsp w (List.mem_cons_self _ _) c (by simpa [joinSp] using hc)
  | w :: w' :: rest =>
    have hwne : w ≠ [] := hne w (List.mem_cons_self _ _)
    have hwsp : ∀ c ∈ w, pySpace c = false := hsp w (List.mem_cons_self _ _)
    obtain ⟨a, t, rfl⟩ := List.exists_cons_of_ne_nil hwne
    have ha : pySpace a = false := hwsp a (List.mem_cons_self _ _)
    show (((a :: t) ++ ' ' :: joinSp (w' :: rest)).dropWhile pySpace) = _
    rw [List.cons_append, List.dropWhile_cons]
    simp [ha, joinSp]

theorem reverse_joinSp_dropWhile : ∀ (ws : List (List Char)),
    (∀ w ∈ ws, w ≠ []) → (∀ w ∈ ws, ∀ c ∈ w, pySpace c = false) →
    ((joinSp ws).reverse).dropWhile pySpace = (joinSp ws).reverse := by
  intro ws
  induction ws with
  | nil => intro _ _; rfl
  | cons w rest ih =>
    intro hne hsp
    have hwne : w ≠ [] := hne w (List.mem_cons_self _ _)
    have hwsp : ∀ c ∈ w, pySpace c = false := hsp w (List.mem_cons_self _ _)
    cases rest with
    | nil =>
      apply dropWhile_eq_self_of_all
      intro c hc
      refine hwsp c ?_
      rw [List.mem_reverse] at hc
      simpa [joinSp] using hc
    | cons w' rest' =>
      have hne' : ∀ x ∈ w' :: rest', x ≠ [] :=
        fun x hx => hne x (List.mem_cons_of_mem _ hx)
      have hsp' : ∀ x ∈ w' :: rest', ∀ c ∈ x, pySpace c = false :=
        fun x hx => hsp x (List.mem_cons_of_mem _ hx)
      have hj : joinSp (w' :: rest') ≠ [] := joinSp_ne_nil (by simp) hne'
      have hjr : (joinSp (w' :: rest')).reverse ≠ [] := by
        simpa using hj
      obtain ⟨d, t, hdt⟩ := List.exists_cons_of_ne_nil hjr
      have hih := ih hne' hsp'
      rw [hdt] at hih
      have hd : pySpace d = false := dropWhile_head_false hih
      show ((w ++ ' ' :: joinSp (w' :: rest')).reverse).dropWhile pySpace =
        (w ++ ' ' :: joinSp (w' :: rest')).reverse
      rw [List.reverse_append, List.reverse_cons, hdt]
      simp only [List.cons_append, List.dropWhile_cons, hd, Bool.false_eq_true,
        if_false]

theorem mem_joinSp : ∀ {ws : List (List Char)} {c : Char},
    c ∈ joinSp ws → c = ' ' ∨ ∃ w ∈ ws, c ∈ w := by
  intro ws
  induction ws with
  | nil => intro c hc; cases hc
  | cons w rest ih =>
    intro c hc
    cases rest with
    | nil =>
      simp only [joinSp] at hc
      exact Or.inr ⟨w, List.mem_cons_self _ _, hc⟩
    | cons w' rest' =>
      simp only [joinSp, List.mem_append, List.mem_cons] at hc
      rcases hc with hc | rfl | hc
      · exact Or.inr ⟨w, List.mem_cons_self _ _, hc⟩
      · exact Or.inl rfl
      · rcases ih hc with h | ⟨x, hx, hcx⟩
        · exact Or.inl h
        · exact Or.inr ⟨x, List.mem_cons_of_mem _ hx, hcx⟩

theorem punctToSpace_fixed {l : List Char}
    (h : ∀ c ∈ l, (pyIsWordChar c || pySpace c) = true) :
    punctToSpace l = l := by
  unfold punctToSpace
  induction l with
  | nil => rfl
  | cons c t ih =>
    simp only [List.map_cons]
    rw [if_pos (h c (List.mem_cons_self _ _)),
      ih (fun x hx => h x (List.mem_cons_of_mem _ hx))]

/-- The canonical-form stage (punctuation to space, whitespace collapse,
strip) is idempotent. -/
theorem cleanupC_cleanupC (s : List Char) :
    cleanupC (cleanupC s) = cleanupC s := by
  have hne : ∀ w ∈ wordsAux (punctToSpace s) [], w ≠ [] :=
    words_nonempty (punctToSpace s) []
  have hq : ∀ c ∈ punctToSpace s, pySpace c = false → pyIsWordChar c = true := by
    intro c hc hns
    unfold punctToSpace at hc
    rcases List.mem_map.mp hc with ⟨c0, _, rfl⟩
    by_cases h0 : (pyIsWordChar c0 || pySpace c0) = true
    · rw [if_pos h0]
      rw [if_pos h0] at hns
      rcases Bool.or_eq_true_iff.mp h0 with h | h
      · exact h
      · rw [h] at hns; cases hns
    · rw [if_neg h0] at hns
      simp [pySpace] at hns
  have hwchar : ∀ w ∈ wordsAux (punctToSpace s) [], ∀ c ∈ w,
      pyIsWordChar c = true :=
    words_chars pyIsWordChar (punctToSpace s) [] hq (by simp)
  have hnsp : ∀ w ∈ wordsAux (punctToSpace s) [], ∀ c ∈ w,
      pySpace c = false :=
    words_no_space (punctToSpace s)
  have hstrip : pyStripC (joinSp (wordsAux (punctToSpace s) [])) =
      joinSp (wordsAux (punctToSpace s) []) := by
    unfold pyStripC
    rw [dropWhile_joinSp _ hne hnsp, reverse_joinSp_dropWhile _ hne hnsp,
      List.reverse_reverse]
  have h1 : cleanupC s = joinSp (wordsAux (punctToSpace s) []) := by
    rw [cleanupC, hstrip]
  have hfix : punctToSpace (joinSp (wordsAux (punctToSpace s) [])) =
      joinSp (wordsAux (punctToSpace s) []) := by
    apply punctToSpace_fixed
    intro c hc
    rcases mem_joinSp hc with rfl | ⟨w, hw, hcw⟩
    · simp [pySpace]
    · simp [hwchar w hw c hcw]
  rw [h1, cleanupC, hfix, wordsAux_joinSp _ hne hnsp, hstrip]

end Phase4

/-- C3 (amended).  When either name of a pair is the empty string the
feature scorer returns `token_jaccard = 0` and both Jaro-Winkler
similarities 0, but `contains_match` returns `true`, not `false`: in
Python the empty string is a substring of every string, so
`a_lower in b_lower` succeeds.  (The original claim said all features are
zero/false.) -/
theorem C3_amended (a b : String) (h : a = "" ∨ b = "") :
    Phase1.token_jaccard a b = 0 ∧
    Jelly.jaro_winkler_similarity a b = 0 ∧
    Phase4.normalized_jaro_winkler a b = 0 ∧
    Phase1.contains_match a b = true := by
  have hsub : ∀ l : List Char, ER.isSub [] l = true := by
    intro l
    cases l <;> simp [ER.isSub, ER.leadsList]
  have htok : Phase1.tokenize "" = ∅ := rfl
  have hnorm : Phase4.normalize_name "" = "" := rfl
  rcases h with rfl | rfl
  · refine ⟨?_, ?_, ?_, ?_⟩
    · simp [Phase1.token_jaccard, htok]
    · exact Jelly.jaro_winkler_empty "" b (Or.inl rfl)
    · simp [Phase4.normalized_jaro_winkler, hnorm]
    · simp only [Phase1.contains_match, Bool.or_eq_true]
      exact Or.inl (hsub _)
  · refine ⟨?_, ?_, ?_, ?_⟩
    · simp [Phase1.token_jaccard, htok]
    · exact Jelly.jaro_winkler_empty a "" (Or.inr rfl)
    · simp [Phase4.normalized_jaro_winkler, hnorm]
    · simp only [Phase1.contains_match, Bool.or_eq_true]
      exact Or.inr (hsub _)

/-- C3 witness: the amended statement at the concrete pair `("", "abc")`. -/
theorem C3_witness :
    Phase1.token_jaccard "" "abc" = 0 ∧
    Jelly.jaro_winkler_similarity "" "abc" = 0 ∧
    Phase4.normalized_jaro_winkler "" "abc" = 0 ∧
    Phase1.contains_match "" "abc" = true :=
  C3_amended "" "abc" (Or.inl rfl)

/-- C3 counterexample: `contains_match("", "abc")` evaluates to `true`,
contradicting the claim that the scorer returns `false` for
`contains_match` whenever one side is empty. -/
theorem C3_counterexample :
    Phase1.contains_match "" "abc" = true ∧
    ¬ (Phase1.contains_match "" "abc" = false) := by
  constructor
  · decide
  · decide

set_option maxHeartbeats 4000000 in
/-- C6 counterexample: `normalize_name` is not idempotent.  For the name
`"x co co"` one normalization strips only the outer `co` legal suffix
(the suffix regexes run once, in a fixed order), giving `"x co"`, and a
second normalization strips the newly exposed `co`, giving `"x"`. -/
theorem C6_counterexample :
    Phase4.normalize_name (Phase4.normalize_name "x co co") ≠
      Phase4.normalize_name "x co co" ∧
    Phase4.normalize_name "x co co" = "x co" ∧
    Phase4.normalize_name "x co" = "x" := by
  refine ⟨?_, ?_, ?_⟩
  · decide
  · decide
  · decide

/-- C6 (amended).  Full `normalize(normalize(a)) = normalize(a)` fails
(see the counterexample: a second pass can strip a further legal suffix).
What does hold is that the canonical-form stage is idempotent across the
whole normalizer: every `normalize_name` output is a fixed point of the
punctuation-strip / whitespace-collapse / strip stage `cleanup`, so
re-canonicalizing a normalized name never changes it. -/
theorem C6_amended (a : String) :
    Phase4.cleanup (Phase4.normalize_name a) = Phase4.normalize_name a := by
  by_cases h : a = ""
  · subst h
    rfl
  · have hn : Phase4.normalize_name a =
        ⟨Phase4.cleanupC
          (Phase4.applyTitles (Phase4.applySuffixes (ER.pyLower a).data))⟩ := by
      unfold Phase4.normalize_name
      rw [if_neg h]
    rw [hn, Phase4.cleanup_mk, Phase4.cleanupC_cleanupC]

/-!
Embedding of `scripts/03_entity_resolution/20_tiered_entity_resolution.py`:
the source/target tables, Tier 1 ticker matching (lines 158-189), Tier 2
parent inheritance (lines 192-236), the Tier-3 unmatched set and scoring
loop (lines 239-354), and the `main` wiring (lines 357-391).
Embedding vectors come from the opaque deterministic embedding service,
modelled as a function `embedOf : String → List α`; the vector norm
`np.linalg.norm` is a parameter `normF` constrained in the theorems by
`0 ≤ normF v` and `sumSq v ≤ normF v * normF v` (both hold for the real
square root of the sum of squares, see `normF_real_spec`).
-/

namespace Tiered

open ER

/-- One row of the SafeGraph brand table.  `stockSymbol` and `parentId`
are `none` for missing (NaN) values. -/
structure SGRow where
  brandId : String
  brandName : String
  stockSymbol : Option String
  naics : String
  parentId : Option String
deriving DecidableEq

/-- One row of the PAW company table. -/
structure PawRow where
  rcid : String
  companyName : String
  ticker : Option String
  gvkey : Option String
  finalParent : Option String
  finalParentRcid : Option String
  hasTicker : Bool
  hasGvkey : Bool
deriving DecidableEq

/-- A Tier-1 or Tier-2 match row (the shared output columns). -/
structure MatchRow where
  sg : SGRow
  rcid : String
  companyName : String
  gvkey : Option String
  finalParent : Option String
  finalParentRcid : Option String
  tier : ℕ
  confidence : ℚ
  parentBrandId : Option String
deriving DecidableEq

/-- Lines 164/167: a usable ticker value is non-null, non-empty and not
the literal string `"None"`. -/
def validTicker : Option String → Bool
  | none => false
  | some t => !(t == "") && !(t == "None")

/-- Lines 165/168: `.str.upper().str.strip()`. -/
def tickerKey (t : String) : String := pyStrip (pyUpper t)

/-- Line 164: brands with a usable ticker. -/
def sg_with_ticker (sg : List SGRow) : List SGRow :=
  sg.filter (fun s => validTicker s.stockSymbol)

/-- Line 167: companies with a usable ticker. -/
def paw_with_ticker (paw : List PawRow) : List PawRow :=
  paw.filter (fun p => validTicker p.ticker)

/-- Does company `p` carry normalized ticker equal to `tickerKey t`? -/
def tickerMatches (p : PawRow) (t : String) : Bool :=
  match p.ticker with
  | none => false
  | some pt => tickerKey pt == tickerKey t

/-- Lines 158-189, `tier1_ticker_matching`: the company table is deduped
on the normalized ticker keeping the *first* occurrence
(`drop_duplicates('ticker_upper')`), then inner-merged with the brands;
so each brand with a usable ticker is matched to the first company
carrying the same normalized ticker, if any. -/
def tier1_ticker_matching (sg : List SGRow) (paw : List PawRow) :
    List MatchRow :=
  (sg_with_ticker sg).filterMap (fun s =>
    match s.stockSymbol with
    | none => none
    | some t =>
      ((paw_with_ticker paw).find? (fun p => tickerMatches p t)).map
        (fun p => ⟨s, p.rcid, p.companyName, p.gvkey, p.finalParent,
          p.finalParentRcid, 1, 1, none⟩))

/-- `pandas` `set_index(...).to_dict('index')`: later rows overwrite
earlier ones, so lookup returns the last row with the given brand id. -/
def lookupLast (tier1 : List MatchRow) (pid : String) : Option MatchRow :=
  tier1.reverse.find? (fun r => r.sg.brandId == pid)

/-- Lines 198-204: brands with a non-empty parent id that are not
already Tier-1 matched. -/
def sg_with_parent (sg : List SGRow) (tier1 : List MatchRow) : List SGRow :=
  sg.filter (fun s =>
    (match s.parentId with
     | none => false
     | some p => !(p == "")) &&
    !((tier1.map (fun r => r.sg.brandId)).contains s.brandId))

/-- Lines 192-236, `tier2_parent_inheritance`: a brand inherits the
Tier-1 match of its declared parent, with tier 2 and confidence 0.95. -/
def tier2_parent_inheritance (sg : List SGRow) (tier1 : List MatchRow) :
    List MatchRow :=
  (sg_with_parent sg tier1).filterMap (fun s =>
    match s.parentId with
    | none => none
    | some pid =>
      (lookupLast tier1 pid).map (fun pr =>
        ⟨s, pr.rcid, pr.companyName, pr.gvkey, pr.finalParent,
          pr.finalParentRcid, 2, 95/100, some pid⟩))

/-- Lines 68-74: this script's `normalize_name` (strip, truncate to 500
characters, replace non-printable characters other than space and tab by
a space, collapse whitespace).  `isprintable` is modelled on ASCII. -/
def pyIsPrintable (c : Char) : Bool := 0x20 ≤ c.toNat && c.toNat ≤ 0x7e

def normalize_name (name : String) : String :=
  let s := (pyStrip name).data.take 500
  let s := s.map (fun c =>
    if pyIsPrintable c || c = ' ' || c = '\t' then c else ' ')
  ⟨Phase4.joinSp (wordsAux s [])⟩

/-- Lines 45-58: the tokenizer and Jaccard feature of this script are
textually identical to those of `12_singleton_phase1_features.py`. -/
def token_jaccard (a b : String) : ℚ := Phase1.token_jaccard a b

/-- Lines 61-65: identical to `contains_match` of
`12_singleton_phase1_features.py`. -/
def contains_match (a b : String) : Bool := Phase1.contains_match a b

/-- Line 41-42: module constants. -/
def TOP_K : ℕ := 20

def TIER3_THRESHOLD : ℚ := 3/4

/-- Line 376 of `main`: the exclusion set is the union of the Tier-1 and
Tier-2 brand ids, computed in full before Tier 3 runs. -/
def matched_brand_ids (sg : List SGRow) (paw : List PawRow) : List String :=
  (tier1_ticker_matching sg paw).map (fun r => r.sg.brandId) ++
    (tier2_parent_inheritance sg (tier1_ticker_matching sg paw)).map
      (fun r => r.sg.brandId)

/-- Lines 246-250: the brands Tier 3 processes — not in the exclusion
set and with a non-empty cleaned name. -/
def sg_unmatched (sg : List SGRow) (matched : List String) : List SGRow :=
  (sg.filter (fun s => !(matched.contains s.brandId))).filter
    (fun s => !(normalize_name s.brandName == ""))

/-- Sum of squares of a vector (the square of `np.linalg.norm`). -/
def sumSq {α} [LinearOrderedField α] (v : List α) : α :=
  (v.map (fun x => x * x)).sum

/-- Lines 273-276: divide a vector by its norm plus `1e-10`. -/
def epsNormalize {α} [LinearOrderedField α] (normF : List α → α)
    (v : List α) : List α :=
  v.map (fun x => x / (normF v + 1/10000000000))

/-- Dot product (rows of `np.dot(chunk, company_normalized.T)`). -/
def dotL {α} [LinearOrderedField α] (v w : List α) : α :=
  ((v.zip w).map (fun p => p.1 * p.2)).sum

/-- The best-candidate record of the Tier-3 inner loop (lines 316-325). -/
structure T3Best (α : Type) where
  companyIdx : ℕ
  companyName : String
  cosSim : α
  jaroWinkler : ℚ
  jaroWinklerNorm : ℚ
  tokenJaccard : ℚ
  containsMatch : ℚ
  combinedScore : α

/-- Lines 300-312: the features and combined score of one candidate.
`c` is `(company index, company name, cosine similarity)`; `bn` is the
cleaned brand name. -/
def mkBest {α} [LinearOrderedField α] (bn : String) (c : ℕ × String × α) :
    T3Best α :=
  let jw := Jelly.jaro_winkler_similarity (pyLower bn) (pyLower c.2.1)
  let jwn := Jelly.jaro_winkler_similarity (pyLower (normalize_name bn))
    (pyLower (normalize_name c.2.1))
  let tj := token_jaccard bn c.2.1
  let cm : ℚ := if contains_match bn c.2.1 then 1 else 0
  ⟨c.1, c.2.1, c.2.2,
    jw, jwn, tj, cm,
    4/10 * c.2.2 + 3/10 * (jwn : α) + 2/10 * (tj : α) + 1/10 * (cm : α)⟩

/-- One step of the best-candidate fold: keep the strictly better
combined score (`combined_score > best_score`, line 314). -/
def bestStep {α} [LinearOrderedField α] (bn : String)
    (acc : Option (T3Best α) × α) (c : ℕ × String × α) :
    Option (T3Best α) × α :=
  let b := mkBest bn c
  if acc.2 < b.combinedScore then (some b, b.combinedScore) else acc

/-- Lines 297-325: fold over the top-K candidates keeping the strictly
best combined score, starting from `best_match = None`, `best_score = 0`. -/
def bestLoop {α} [LinearOrderedField α] (bn : String)
    (cands : List (ℕ × String × α)) : Option (T3Best α) × α :=
  cands.foldl (bestStep bn) (none, 0)

/-- A Tier-3 match record (lines 330-349).  `companyIdx` indexes the
company table row whose `rcid`/`gvkey`/verification flags the code
copies into the record. -/
structure T3Row (α : Type) where
  sg : SGRow
  companyIdx : ℕ
  companyName : String
  confidence : α
  cosSim : α
  jaroWinkler : ℚ
  jaroWinklerNorm : ℚ
  tokenJaccard : ℚ
  containsMatch : ℚ
  tier : ℕ

/-- Lines 289-349: process one unmatched brand: take the top-`k`
candidates of its similarity row, fold for the best combined score, and
emit a record exactly when the best score reaches `TIER3_THRESHOLD`. -/
def tier3ForBrand {α} [LinearOrderedField α]
    (k : ℕ) (companyNames : List String)
    (companyNormalized : List (List α)) (bvec : List α) (s : SGRow) :
    Option (T3Row α) :=
  let bn := normalize_name s.brandName
  let simRow := companyNormalized.map (fun cv => dotL bvec cv)
  let topk := Phase1.find_top_k_row simRow k
  let cands := topk.map (fun p => (p.1, companyNames.getD p.1 "", p.2))
  match (bestLoop bn cands).1 with
  | none => none
  | some b =>
    if ((TIER3_THRESHOLD : ℚ) : α) ≤ b.combinedScore then
      some ⟨s, b.companyIdx, b.companyName, b.combinedScore, b.cosSim,
        b.jaroWinkler, b.jaroWinklerNorm, b.tokenJaccard, b.containsMatch, 3⟩
    else none

/-- Lines 239-354, `tier3_fuzzy_matching`: `company_names` is the
company-name column, `company_normalized` the `1e-10`-regularized
normalized embedding matrix, and each unmatched brand is scored by
`tier3ForBrand` against it. -/
def tier3_fuzzy_matching {α} [LinearOrderedField α]
    (normF : List α → α) (embedOf : String → List α) (k : ℕ)
    (sg : List SGRow) (paw : List PawRow) (matched : List String) :
    List (T3Row α) :=
  (sg_unmatched sg matched).filterMap (fun s =>
    tier3ForBrand k (paw.map (fun p => p.companyName))
      ((paw.map (fun p => p.companyName)).map
        (fun nm => epsNormalize normF (embedOf nm)))
      (epsNormalize normF (embedOf (normalize_name s.brandName))) s)

/-- The real norm `np.linalg.norm` satisfies the two `normF` bounds the
Tier-3 theorems assume. -/
theorem normF_real_spec (v : List ℝ) :
    0 ≤ Real.sqrt (sumSq v) ∧
      sumSq v ≤ Real.sqrt (sumSq v) * Real.sqrt (sumSq v) := by
  have hnn : 0 ≤ sumSq v := by
    unfold sumSq
    induction v with
    | nil => simp
    | cons x t ih =>
      simp only [List.map_cons, List.sum_cons]
      have := mul_self_nonneg x
      simp only [List.map] at ih
      nlinarith
  exact ⟨Real.sqrt_nonneg _, le_of_eq (Real.mul_self_sqrt hnn).symm⟩

end Tiered

namespace Tiered

/-- Membership characterization of the Tier-1 output. -/
theorem mem_tier1 {sg : List SGRow} {paw : List PawRow} {r : MatchRow} :
    r ∈ tier1_ticker_matching sg paw ↔
      ∃ s ∈ sg_with_ticker sg, ∃ t, s.stockSymbol = some t ∧
        ∃ p, (paw_with_ticker paw).find? (fun q => tickerMatches q t) = some p ∧
          r = ⟨s, p.rcid, p.companyName, p.gvkey, p.finalParent,
            p.finalParentRcid, 1, 1, none⟩ := by
  unfold tier1_ticker_matching
  rw [List.mem_filterMap]
  constructor
  · rintro ⟨s, hs, hf⟩
    cases hsym : s.stockSymbol with
    | none => rw [hsym] at hf; cases hf
    | some t =>
      rw [hsym] at hf
      rcases Option.map_eq_some'.mp hf with ⟨p, hp, hr⟩
      exact ⟨s, hs, t, hsym, p, hp, hr.symm⟩
  · rintro ⟨s, hs, t, hsym, p, hp, rfl⟩
    refine ⟨s, hs, ?_⟩
    rw [hsym]
    dsimp only
    rw [hp]
    rfl

/-- Membership characterization of the Tier-2 output. -/
theorem mem_tier2 {sg : List SGRow} {tier1 : List MatchRow} {r : MatchRow} :
    r ∈ tier2_parent_inheritance sg tier1 ↔
      ∃ s ∈ sg_with_parent sg tier1, ∃ pid, s.parentId = some pid ∧
        ∃ pr, lookupLast tier1 pid = some pr ∧
          r = ⟨s, pr.rcid, pr.companyName, pr.gvkey, pr.finalParent,
            pr.finalParentRcid, 2, 95/100, some pid⟩ := by
  unfold tier2_parent_inheritance
  rw [List.mem_filterMap]
  constructor
  · rintro ⟨s, hs, hf⟩
    cases hpar : s.parentId with
    | none => rw [hpar] at hf; cases hf
    | some pid =>
      rw [hpar] at hf
      rcases Option.map_eq_some'.mp hf with ⟨pr, hpr, hr⟩
      exact ⟨s, hs, pid, hpar, pr, hpr, hr.symm⟩
  · rintro ⟨s, hs, pid, hpar, pr, hpr, rfl⟩
    refine ⟨s, hs, ?_⟩
    rw [hpar]
    dsimp only
    rw [hpr]
    rfl

theorem lookupLast_some {tier1 : List MatchRow} {pid : String}
    {pr : MatchRow} (h : lookupLast tier1 pid = some pr) :
    pr ∈ tier1 ∧ pr.sg.brandId = pid := by
  constructor
  · have := List.mem_of_find?_eq_some h
    exact List.mem_reverse.mp this
  · have := List.find?_some h
    simpa using this

theorem lookupLast_isSome {tier1 : List MatchRow} {pid : String} :
    (lookupLast tier1 pid).isSome ↔
      pid ∈ tier1.map (fun r => r.sg.brandId) := by
  unfold lookupLast
  rw [List.find?_isSome]
  constructor
  · rintro ⟨r, hr, hb⟩
    simp only [beq_iff_eq] at hb
    exact List.mem_map.mpr ⟨r, List.mem_reverse.mp hr, hb⟩
  · intro h
    rcases List.mem_map.mp h with ⟨r, hr, hb⟩
    exact ⟨r, List.mem_reverse.mpr hr, by simp [hb]⟩

theorem contains_false_iff {l : List String} {a : String} :
    l.contains a = false ↔ a ∉ l := by
  rw [show l.contains a = l.elem a from rfl, List.elem_eq_mem]
  simp

theorem mem_sg_with_parent {sg : List SGRow} {tier1 : List MatchRow}
    {s : SGRow} :
    s ∈ sg_with_parent sg tier1 ↔
      s ∈ sg ∧ (∃ pid, s.parentId = some pid ∧ pid ≠ "") ∧
        s.brandId ∉ tier1.map (fun r => r.sg.brandId) := by
  unfold sg_with_parent
  rw [List.mem_filter]
  constructor
  · rintro ⟨hmem, hcond⟩
    simp only [Bool.and_eq_true, Bool.not_eq_true'] at hcond
    refine ⟨hmem, ?_, ?_⟩
    · cases hpar : s.parentId with
      | none => rw [hpar] at hcond; cases hcond.1
      | some pid =>
        rw [hpar] at hcond
        refine ⟨pid, rfl, ?_⟩
        have := hcond.1
        simpa using this
    · exact contains_false_iff.mp hcond.2
  · rintro ⟨hmem, ⟨pid, hpar, hne⟩, hnot⟩
    refine ⟨hmem, ?_⟩
    simp only [Bool.and_eq_true, Bool.not_eq_true']
    constructor
    · rw [hpar]
      simpa using hne
    · exact contains_false_iff.mpr hnot

end Tiered

/-- C1 (amended).  A source brand with a usable ticker receives a Tier-1
match (tier 1, confidence 1.0) iff *at least one* target company carries
the same upper-cased, whitespace-trimmed ticker — not "exactly one" as
originally claimed: `drop_duplicates('ticker_upper')` keeps the first
company per normalized ticker, so an ambiguous ticker is matched to the
first carrier rather than skipped.  The match target is that first
carrier, and Tier 1 still never produces two decisions with different
targets for the same normalized identifier. -/
theorem C1_amended (sg : List Tiered.SGRow) (paw : List Tiered.PawRow) :
    (∀ s ∈ Tiered.sg_with_ticker sg, ∀ t, s.stockSymbol = some t →
      ((∃ r ∈ Tiered.tier1_ticker_matching sg paw, r.sg = s) ↔
        ∃ p ∈ Tiered.paw_with_ticker paw, Tiered.tickerMatches p t = true)) ∧
    (∀ r ∈ Tiered.tier1_ticker_matching sg paw,
      r.tier = 1 ∧ r.confidence = 1 ∧
      ∀ t, r.sg.stockSymbol = some t →
        ∃ p, (Tiered.paw_with_ticker paw).find?
            (fun q => Tiered.tickerMatches q t) = some p ∧
          r.rcid = p.rcid ∧ r.companyName = p.companyName ∧
          r.gvkey = p.gvkey) ∧
    (∀ r₁ ∈ Tiered.tier1_ticker_matching sg paw,
     ∀ r₂ ∈ Tiered.tier1_ticker_matching sg paw,
      r₁.sg.stockSymbol.map Tiered.tickerKey =
        r₂.sg.stockSymbol.map Tiered.tickerKey →
      r₁.rcid = r₂.rcid ∧ r₁.companyName = r₂.companyName) := by
  have hpred : ∀ t₁ t₂, Tiered.tickerKey t₁ = Tiered.tickerKey t₂ →
      (fun q => Tiered.tickerMatches q t₁) =
        (fun q => Tiered.tickerMatches q t₂) := by
    intro t₁ t₂ hk
    funext q
    unfold Tiered.tickerMatches
    cases q.ticker with
    | none => rfl
    | some pt => rw [hk]
  refine ⟨?_, ?_, ?_⟩
  · intro s hs t ht
    constructor
    · rintro ⟨r, hr, hrs⟩
      rcases Tiered.mem_tier1.mp hr with ⟨s', _, t', ht', p, hp, rfl⟩
      have hss : s' = s := hrs
      subst hss
      rw [ht] at ht'
      injection ht' with htt
      subst htt
      have hps := List.find?_some hp
      exact ⟨p, List.mem_of_find?_eq_some hp, hps⟩
    · rintro ⟨p, hp, hmatch⟩
      have hsome : ((Tiered.paw_with_ticker paw).find?
          (fun q => Tiered.tickerMatches q t)).isSome :=
        List.find?_isSome.mpr ⟨p, hp, hmatch⟩
      rcases Option.isSome_iff_exists.mp hsome with ⟨p₀, hp₀⟩
      exact ⟨_, Tiered.mem_tier1.mpr ⟨s, hs, t, ht, p₀, hp₀, rfl⟩, rfl⟩
  · intro r hr
    rcases Tiered.mem_tier1.mp hr with ⟨s, _, t, ht, p, hp, rfl⟩
    refine ⟨rfl, rfl, ?_⟩
    intro t' ht'
    have : s.stockSymbol = some t' := ht'
    rw [ht] at this
    injection this with htt
    subst htt
    exact ⟨p, hp, rfl, rfl, rfl⟩
  · intro r₁ hr₁ r₂ hr₂ hkey
    rcases Tiered.mem_tier1.mp hr₁ with ⟨s₁, _, t₁, ht₁, p₁, hp₁, rfl⟩
    rcases Tiered.mem_tier1.mp hr₂ with ⟨s₂, _, t₂, ht₂, p₂, hp₂, rfl⟩
    simp only [ht₁, ht₂, Option.map_some'] at hkey
    injection hkey with hk
    rw [hpred t₁ t₂ hk] at hp₁
    rw [hp₁] at hp₂
    injection hp₂ with hp
    subst hp
    exact ⟨rfl, rfl⟩

/-- C1 witness: the amended iff applied at a one-brand, one-company
table where the normalized tickers agree (`"wmt"` vs `"WMT "`). -/
theorem C1_witness :
    ∃ r ∈ Tiered.tier1_ticker_matching
      [⟨"b1", "Walmart", some "wmt", "452", none⟩]
      [⟨"r1", "Walmart Inc", some "WMT ", some "g1", none, none, true, true⟩],
      r.sg = ⟨"b1", "Walmart", some "wmt", "452", none⟩ :=
  ((C1_amended
      [⟨"b1", "Walmart", some "wmt", "452", none⟩]
      [⟨"r1", "Walmart Inc", some "WMT ", some "g1", none, none, true, true⟩]).1
    ⟨"b1", "Walmart", some "wmt", "452", none⟩ (by decide) "wmt" rfl).mpr
    ⟨⟨"r1", "Walmart Inc", some "WMT ", some "g1", none, none, true, true⟩,
      by decide, by decide⟩

/-- C1 counterexample: two target companies carry the normalized ticker
`"WMT"`, yet the source brand still receives a Tier-1 match — to the
first carrier (`rcid = "r1"`) — whereas the claim says an identifier
matching more than one target yields no Tier-1 match. -/
theorem C1_counterexample :
    ((Tiered.paw_with_ticker
        [⟨"r1", "Walmart Inc", some "WMT", some "g1", none, none, true, true⟩,
         ⟨"r2", "Other Corp", some "wmt ", none, none, none, true, false⟩]).countP
      (fun p => Tiered.tickerMatches p "wmt")) = 2 ∧
    (Tiered.tier1_ticker_matching
        [⟨"b1", "Walmart", some "wmt", "452", none⟩]
        [⟨"r1", "Walmart Inc", some "WMT", some "g1", none, none, true, true⟩,
         ⟨"r2", "Other Corp", some "wmt ", none, none, none, true, false⟩]).map
      (fun r => (r.sg.brandId, r.rcid)) = [("b1", "r1")] := by
  constructor
  · decide
  · decide

/-- C2 (confirmed).  Every source entity processed by Tier-3 candidate
generation lies outside the Tier-1 ids, outside the Tier-2 ids, and
outside the full `matched_brand_ids` exclusion set, which `main`
computes as the union of the two after both tiers complete and passes
immutably into `tier3_fuzzy_matching`. -/
theorem C2_exclusion (sg : List Tiered.SGRow) (paw : List Tiered.PawRow) :
    ∀ s ∈ Tiered.sg_unmatched sg (Tiered.matched_brand_ids sg paw),
      s.brandId ∉ (Tiered.tier1_ticker_matching sg paw).map
          (fun r => r.sg.brandId) ∧
      s.brandId ∉ (Tiered.tier2_parent_inheritance sg
          (Tiered.tier1_ticker_matching sg paw)).map
          (fun r => r.sg.brandId) ∧
      s.brandId ∉ Tiered.matched_brand_ids sg paw := by
  intro s hs
  unfold Tiered.sg_unmatched at hs
  have hs1 := List.mem_of_mem_filter hs
  have hcond := List.of_mem_filter hs1
  simp only [Bool.not_eq_true'] at hcond
  have hnot : s.brandId ∉ Tiered.matched_brand_ids sg paw :=
    Tiered.contains_false_iff.mp hcond
  unfold Tiered.matched_brand_ids at hnot
  rw [List.mem_append] at hnot
  push_neg at hnot
  exact ⟨hnot.1, hnot.2, by
    unfold Tiered.matched_brand_ids
    rw [List.mem_append]
    push_neg
    exact hnot⟩

/-- C2 witness: a brand whose id is in neither tier is processed by
Tier 3 and the exclusion properties hold for it. -/
theorem C2_witness :
    ⟨"b9", "Target", none, "452", none⟩ ∈ Tiered.sg_unmatched
      [⟨"b1", "Walmart", some "wmt", "452", none⟩,
       ⟨"b9", "Target", none, "452", none⟩]
      (Tiered.matched_brand_ids
        [⟨"b1", "Walmart", some "wmt", "452", none⟩,
         ⟨"b9", "Target", none, "452", none⟩]
        [⟨"r1", "Walmart Inc", some "WMT", some "g1", none, none, true, true⟩]) ∧
    ("b9" : String) ∉ (Tiered.tier1_ticker_matching
        [⟨"b1", "Walmart", some "wmt", "452", none⟩,
         ⟨"b9", "Target", none, "452", none⟩]
        [⟨"r1", "Walmart Inc", some "WMT", some "g1", none, none, true, true⟩]).map
      (fun r => r.sg.brandId) := by
  constructor
  · decide
  · exact (C2_exclusion
      [⟨"b1", "Walmart", some "wmt", "452", none⟩,
       ⟨"b9", "Target", none, "452", none⟩]
      [⟨"r1", "Walmart Inc", some "WMT", some "g1", none, none, true, true⟩]
      ⟨"b9", "Target", none, "452", none⟩ (by decide)).1

/-- C7 (confirmed).  A source entity receives a Tier-2 match exactly when
it is not Tier-1 matched, declares a non-empty parent id, and that parent
is itself Tier-1 matched; the decision copies the parent's Tier-1 target
with tier 2 and confidence 0.95.  Inheritance is single-level by
construction: the lookup consults only the Tier-1 table. -/
theorem C7_tier2_inheritance (sg : List Tiered.SGRow) (paw : List Tiered.PawRow) :
    (∀ s ∈ sg,
      ((∃ r ∈ Tiered.tier2_parent_inheritance sg
          (Tiered.tier1_ticker_matching sg paw), r.sg = s) ↔
        (s.brandId ∉ (Tiered.tier1_ticker_matching sg paw).map
            (fun r => r.sg.brandId) ∧
         ∃ pid, s.parentId = some pid ∧ pid ≠ "" ∧
           pid ∈ (Tiered.tier1_ticker_matching sg paw).map
             (fun r => r.sg.brandId)))) ∧
    (∀ r ∈ Tiered.tier2_parent_inheritance sg
        (Tiered.tier1_ticker_matching sg paw),
      r.tier = 2 ∧ r.confidence = 95/100 ∧
      ∃ pid, r.sg.parentId = some pid ∧ r.parentBrandId = some pid ∧
        ∃ pr ∈ Tiered.tier1_ticker_matching sg paw, pr.sg.brandId = pid ∧
          r.rcid = pr.rcid ∧ r.companyName = pr.companyName ∧
          r.gvkey = pr.gvkey) := by
  constructor
  · intro s hsg
    constructor
    · rintro ⟨r, hr, hrs⟩
      rcases Tiered.mem_tier2.mp hr with ⟨s', hs', pid, hpar, pr, hpr, rfl⟩
      have hss : s' = s := hrs
      subst hss
      rcases Tiered.mem_sg_with_parent.mp hs' with ⟨_, ⟨pid', hpar', hne'⟩, hnot⟩
      rw [hpar] at hpar'
      injection hpar' with hpp
      subst hpp
      refine ⟨hnot, pid, hpar, hne', ?_⟩
      rcases Tiered.lookupLast_some hpr with ⟨hmem, hbid⟩
      exact List.mem_map.mpr ⟨pr, hmem, hbid⟩
    · rintro ⟨hnot, pid, hpar, hne, hmem⟩
      have hsome : (Tiered.lookupLast
          (Tiered.tier1_ticker_matching sg paw) pid).isSome :=
        Tiered.lookupLast_isSome.mpr hmem
      rcases Option.isSome_iff_exists.mp hsome with ⟨pr, hpr⟩
      refine ⟨_, Tiered.mem_tier2.mpr
        ⟨s, Tiered.mem_sg_with_parent.mpr ⟨hsg, ⟨pid, hpar, hne⟩, hnot⟩,
          pid, hpar, pr, hpr, rfl⟩, rfl⟩
  · intro r hr
    rcases Tiered.mem_tier2.mp hr with ⟨s, _, pid, hpar, pr, hpr, rfl⟩
    rcases Tiered.lookupLast_some hpr with ⟨hmem, hbid⟩
    exact ⟨rfl, rfl, pid, hpar, rfl, pr, hmem, hbid, rfl, rfl, rfl⟩

/-- C7 witness: the iff applied at a two-brand table where `"b2"`
declares Tier-1-matched parent `"b1"`. -/
theorem C7_witness :
    ∃ r ∈ Tiered.tier2_parent_inheritance
      [⟨"b1", "Walmart", some "wmt", "452", none⟩,
       ⟨"b2", "Sams Club", none, "452", some "b1"⟩]
      (Tiered.tier1_ticker_matching
        [⟨"b1", "Walmart", some "wmt", "452", none⟩,
         ⟨"b2", "Sams Club", none, "452", some "b1"⟩]
        [⟨"r1", "Walmart Inc", some "WMT", some "g1", none, none, true, true⟩]),
      r.sg = ⟨"b2", "Sams Club", none, "452", some "b1"⟩ :=
  ((C7_tier2_inheritance
      [⟨"b1", "Walmart", some "wmt", "452", none⟩,
       ⟨"b2", "Sams Club", none, "452", some "b1"⟩]
      [⟨"r1", "Walmart Inc", some "WMT", some "g1", none, none, true, true⟩]).1
    ⟨"b2", "Sams Club", none, "452", some "b1"⟩ (by decide)).mpr
    ⟨by decide, "b1", rfl, by decide, by decide⟩

namespace ER

theorem mem_of_mem_enumFrom {n : ℕ} {l : List α} {x : ℕ × α}
    (h : x ∈ l.enumFrom n) : x.2 ∈ l := by
  induction l generalizing n with
  | nil => cases h
  | cons a t ih =>
    rcases List.mem_cons.mp h with rfl | hmem
    · exact List.mem_cons_self _ _
    · exact List.mem_cons_of_mem _ (ih hmem)

theorem mem_of_mem_enum {l : List α} {x : ℕ × α} (h : x ∈ l.enum) :
    x.2 ∈ l :=
  mem_of_mem_enumFrom h

end ER

namespace Phase1

/-- A returned top-K pair carries a value of the similarity row. -/
theorem snd_mem_of_mem_top_k [LinearOrder β] {row : List β} {k : ℕ}
    {p : ℕ × β} (h : p ∈ find_top_k_row row k) : p.2 ∈ row := by
  unfold find_top_k_row at h
  have h1 : p ∈ (ER.sSort leSnd row.enum).reverse :=
    (List.take_sublist _ _).subset h
  rw [List.mem_reverse, ER.mem_sSort] at h1
  exact ER.mem_of_mem_enum h1

theorem token_jaccard_nonneg (a b : String) : 0 ≤ token_jaccard a b := by
  unfold token_jaccard
  by_cases h : tokenize a = ∅ ∨ tokenize b = ∅
  · rw [if_pos h]
  · rw [if_neg h]
    by_cases hu : 0 < (tokenize a ∪ tokenize b).card
    · rw [if_pos hu]
      positivity
    · rw [if_neg hu]

theorem token_jaccard_le_one (a b : String) : token_jaccard a b ≤ 1 := by
  unfold token_jaccard
  by_cases h : tokenize a = ∅ ∨ tokenize b = ∅
  · rw [if_pos h]; norm_num
  · rw [if_neg h]
    by_cases hu : 0 < (tokenize a ∪ tokenize b).card
    · rw [if_pos hu]
      rw [div_le_one (by exact_mod_cast hu)]
      exact_mod_cast Finset.card_le_card
        (Finset.Subset.trans (Finset.inter_subset_left)
          (Finset.subset_union_left))
    · rw [if_neg hu]; norm_num

end Phase1

namespace Tiered

theorem sumSq_nonneg' {α} [LinearOrderedField α] (v : List α) :
    0 ≤ sumSq v := by
  unfold sumSq
  induction v with
  | nil => simp
  | cons x t ih =>
    simp only [List.map_cons, List.sum_cons]
    nlinarith [mul_self_nonneg x]

theorem dotL_cons {α} [LinearOrderedField α] (x y : α) (v w : List α) :
    dotL (x :: v) (y :: w) = x * y + dotL v w := by
  simp [dotL]

/-- Cauchy-Schwarz for the truncating list dot product. -/
theorem dotL_sq_le {α} [LinearOrderedField α] :
    ∀ (v w : List α), (dotL v w) ^ 2 ≤ sumSq v * sumSq w := by
  intro v
  induction v with
  | nil => intro w; simp [dotL, sumSq]
  | cons a v' ih =>
    intro w
    cases w with
    | nil =>
      simp [dotL, sumSq]
    | cons b w' =>
      have h := ih w'
      have hX := sumSq_nonneg' v'
      have hY := sumSq_nonneg' w'
      rw [dotL_cons]
      have hsq : sumSq (a :: v') = a * a + sumSq v' := by
        simp [sumSq]
      have hsq' : sumSq (b :: w') = b * b + sumSq w' := by
        simp [sumSq]
      rw [hsq, hsq']
      set d := dotL v' w'
      set X := sumSq v'
      set Y := sumSq w'
      rcases eq_or_lt_of_le hX with hX0 | hXpos
      · have hd2 : d ^ 2 ≤ 0 := by
          have : X * Y = 0 := by rw [← hX0]; ring
          rw [this] at h
          exact h
        have hd : d = 0 := by nlinarith [sq_nonneg d]
        rw [hd, ← hX0]
        nlinarith [mul_nonneg (mul_self_nonneg a) hY]
      · nlinarith [sq_nonneg (a * d - b * X),
          mul_nonneg (add_nonneg (mul_self_nonneg a) hX)
            (sub_nonneg.mpr h)]

theorem dotL_map_div {α} [LinearOrderedField α] :
    ∀ (v w : List α) (a b : α),
      dotL (v.map (fun t => t / a)) (w.map (fun t => t / b)) =
        dotL v w / (a * b) := by
  intro v
  induction v with
  | nil => intro w a b; simp [dotL]
  | cons x v' ih =>
    intro w a b
    cases w with
    | nil => simp [dotL]
    | cons y w' =>
      simp only [List.map_cons]
      rw [dotL_cons, dotL_cons, ih w' a b, div_mul_div_comm,
        div_add_div_same]

/-- The cosine similarity the Tier-3 loop reads from the similarity
matrix never exceeds 1: the vectors are divided by their norm plus
`1e-10` first. -/
theorem cos_le_one {α} [LinearOrderedField α] (normF : List α → α)
    (hnorm : ∀ v : List α, 0 ≤ normF v ∧ sumSq v ≤ normF v * normF v)
    (x y : List α) :
    dotL (epsNormalize normF x) (epsNormalize normF y) ≤ 1 := by
  have hε : (0 : α) < 1 / 10000000000 := by positivity
  have hA : (0 : α) < normF x + 1 / 10000000000 :=
    add_pos_of_nonneg_of_pos (hnorm x).1 hε
  have hB : (0 : α) < normF y + 1 / 10000000000 :=
    add_pos_of_nonneg_of_pos (hnorm y).1 hε
  have hd : dotL (epsNormalize normF x) (epsNormalize normF y) =
      dotL x y / ((normF x + 1 / 10000000000) * (normF y + 1 / 10000000000)) :=
    dotL_map_div x y _ _
  rw [hd, div_le_one (mul_pos hA hB)]
  have h1 : (dotL x y) ^ 2 ≤ sumSq x * sumSq y := dotL_sq_le x y
  have h2 : sumSq x * sumSq y ≤
      (normF x * normF x) * (normF y * normF y) :=
    mul_le_mul (hnorm x).2 (hnorm y).2 (sumSq_nonneg' y)
      (mul_nonneg (hnorm x).1 (hnorm x).1)
  have h3 : (normF x * normF x) * (normF y * normF y) ≤
      ((normF x + 1 / 10000000000) * (normF y + 1 / 10000000000)) ^ 2 := by
    have hx1 := (hnorm x).1
    have hy1 := (hnorm y).1
    nlinarith [mul_nonneg hx1 hy1, mul_pos hA hB]
  nlinarith [mul_pos hA hB, h1, h2, h3]

/-- Whatever the best-candidate fold returns was built by `mkBest` from
one of the candidates (or was already in the accumulator). -/
theorem bestFold_some {α} [LinearOrderedField α] (bn : String) :
    ∀ (cands : List (ℕ × String × α)) (acc : Option (T3Best α) × α)
      (b : T3Best α),
      (cands.foldl (bestStep bn) acc).1 = some b →
      acc.1 = some b ∨ ∃ c ∈ cands, b = mkBest bn c := by
  intro cands
  induction cands with
  | nil => intro acc b h; exact Or.inl h
  | cons c cs ih =>
    intro acc b h
    rw [List.foldl_cons] at h
    rcases ih _ b h with hacc | ⟨c', hc', rfl⟩
    · unfold bestStep at hacc
      by_cases hlt : acc.2 < (mkBest bn c).combinedScore
      · rw [if_pos hlt] at hacc
        simp only at hacc
        injection hacc with hb
        exact Or.inr ⟨c, List.mem_cons_self _ _, hb.symm⟩
      · rw [if_neg hlt] at hacc
        exact Or.inl hacc
    · exact Or.inr ⟨c', List.mem_cons_of_mem _ hc', rfl⟩

theorem bestLoop_some {α} [LinearOrderedField α] {bn : String}
    {cands : List (ℕ × String × α)} {b : T3Best α}
    (h : (bestLoop bn cands).1 = some b) : ∃ c ∈ cands, b = mkBest bn c := by
  rcases bestFold_some bn cands (none, 0) b h with h0 | h1
  · cases h0
  · exact h1

theorem mkBest_score {α} [LinearOrderedField α] (bn : String)
    (c : ℕ × String × α) :
    (mkBest bn c).combinedScore =
      4/10 * (mkBest bn c).cosSim +
      3/10 * ((mkBest bn c).jaroWinklerNorm : α) +
      2/10 * ((mkBest bn c).tokenJaccard : α) +
      1/10 * ((mkBest bn c).containsMatch : α) := rfl

theorem mkBest_bounds {α} [LinearOrderedField α] (bn : String)
    (c : ℕ × String × α) :
    0 ≤ (mkBest bn c).jaroWinklerNorm ∧ (mkBest bn c).jaroWinklerNorm ≤ 1 ∧
    0 ≤ (mkBest bn c).tokenJaccard ∧ (mkBest bn c).tokenJaccard ≤ 1 ∧
    0 ≤ (mkBest bn c).containsMatch ∧ (mkBest bn c).containsMatch ≤ 1 := by
  refine ⟨Jelly.jaro_winkler_nonneg _ _, Jelly.jaro_winkler_le_one _ _,
    Phase1.token_jaccard_nonneg _ _, Phase1.token_jaccard_le_one _ _, ?_, ?_⟩
  · show (0 : ℚ) ≤ (if contains_match bn c.2.1 then 1 else 0)
    split <;> norm_num
  · show (if contains_match bn c.2.1 then (1 : ℚ) else 0) ≤ 1
    split <;> norm_num

theorem mkBest_cosSim {α} [LinearOrderedField α] (bn : String)
    (c : ℕ × String × α) : (mkBest bn c).cosSim = c.2.2 := rfl

/-- Characterization of the per-brand Tier-3 emission. -/
theorem tier3ForBrand_eq_some {α} [LinearOrderedField α]
    {k : ℕ} {companyNames : List String}
    {companyNormalized : List (List α)} {bvec : List α} {s : SGRow}
    {r : T3Row α} :
    tier3ForBrand k companyNames companyNormalized bvec s = some r ↔
      ∃ b, (bestLoop (normalize_name s.brandName)
          ((Phase1.find_top_k_row
              (companyNormalized.map (fun cv => dotL bvec cv)) k).map
            (fun p => (p.1, companyNames.getD p.1 "", p.2)))).1 = some b ∧
        ((TIER3_THRESHOLD : ℚ) : α) ≤ b.combinedScore ∧
        r = ⟨s, b.companyIdx, b.companyName, b.combinedScore, b.cosSim,
          b.jaroWinkler, b.jaroWinklerNorm, b.tokenJaccard,
          b.containsMatch, 3⟩ := by
  unfold tier3ForBrand
  cases hbl : (bestLoop (normalize_name s.brandName)
      ((Phase1.find_top_k_row
          (companyNormalized.map (fun cv => dotL bvec cv)) k).map
        (fun p => (p.1, companyNames.getD p.1 "", p.2)))).1 with
  | none =>
    simp only [hbl]
    constructor
    · intro h; cases h
    · rintro ⟨b, hb, _⟩; cases hb
  | some b =>
    simp only [hbl]
    by_cases hth : ((TIER3_THRESHOLD : ℚ) : α) ≤ b.combinedScore
    · rw [if_pos hth]
      constructor
      · intro h
        injection h with hr
        exact ⟨b, rfl, hth, hr.symm⟩
      · rintro ⟨b', hb', hth', rfl⟩
        injection hb' with hbb
        subst hbb
        rfl
    · rw [if_neg hth]
      constructor
      · intro h; cases h
      · rintro ⟨b', hb', hth', rfl⟩
        injection hb' with hbb
        subst hbb
        exact absurd hth' hth

end Tiered

/-! Concrete Tier-3 scenario used to instantiate the C10 theorem: one
unmatched brand `"g"`, one company `"g"`, constant embedding `[3]`, and a
norm function that is exact on `[3]` and dominating elsewhere. -/

def w10NormF : List ℚ → ℚ := fun v => if v = [3] then 3 else Tiered.sumSq v + 1

def w10u : ℚ := 30000000000/30000000001

def w10sg : Tiered.SGRow := ⟨"b1", "g", none, "n", none⟩

def w10paw : Tiered.PawRow := ⟨"r1", "g", none, none, none, none, false, false⟩

def w10row : Tiered.T3Row ℚ :=
  ⟨w10sg, 0, "g", 4/10 * (w10u * w10u) + 6/10, w10u * w10u, 1, 1, 1, 1, 3⟩

theorem w10NormF_spec (v : List ℚ) :
    0 ≤ w10NormF v ∧ Tiered.sumSq v ≤ w10NormF v * w10NormF v := by
  unfold w10NormF
  by_cases h : v = [3]
  · subst h
    constructor <;> norm_num [Tiered.sumSq]
  · rw [if_neg h]
    have h0 := Tiered.sumSq_nonneg' v
    constructor
    · linarith
    · nlinarith

theorem find_top_k_singleton {β : Type} [LinearOrder β] (x : β) :
    Phase1.find_top_k_row [x] 1 = [(0, x)] := rfl

/-- In the concrete scenario the Tier-3 pass emits exactly the record
`w10row`: the cosine similarity is `(3 / (3 + 1e-10))²` and all string
features equal 1, so the combined score clears the 0.75 floor. -/
theorem w10_mem : w10row ∈ Tiered.tier3_fuzzy_matching w10NormF
    (fun _ => ([3] : List ℚ)) 1 [w10sg] [w10paw] [] := by
  have hjw : Jelly.jaro_winkler_similarity "g" "g" = 1 := by
    norm_num [Jelly.jaro_winkler_similarity, Jelly.jwList, Jelly.jaroCore,
      Jelly.searchRange, Jelly.scanA, Jelly.findJ, Jelly.trueIdx,
      Jelly.countTrue, Jelly.commonStart4, List.enum]
  have hn : Tiered.normalize_name "g" = "g" := by decide
  have hl : ER.pyLower "g" = "g" := rfl
  have htok : Phase1.tokenize "g" = {"g"} := by decide
  have htj : Tiered.token_jaccard "g" "g" = 1 := by
    norm_num [Tiered.token_jaccard, Phase1.token_jaccard, htok]
  have hcm : Tiered.contains_match "g" "g" = true := by decide
  have hb0 : Tiered.mkBest "g" (0, "g", w10u * w10u) =
      ⟨0, "g", w10u * w10u, 1, 1, 1, 1, 4/10 * (w10u * w10u) + 6/10⟩ := by
    unfold Tiered.mkBest
    simp only [hn, hl, hjw, htj, hcm, Rat.cast_id, if_true]
    norm_num
    ring
  have hu : Tiered.epsNormalize w10NormF [3] = [w10u] := by
    norm_num [Tiered.epsNormalize, w10NormF, w10u]
  have hdot : Tiered.dotL [w10u] [w10u] = w10u * w10u := by
    norm_num [Tiered.dotL]
  have hbn : Tiered.normalize_name w10sg.brandName = "g" := by decide
  unfold Tiered.tier3_fuzzy_matching
  refine List.mem_filterMap.mpr ⟨w10sg, by decide, ?_⟩
  show Tiered.tier3ForBrand 1 ["g"] [Tiered.epsNormalize w10NormF [3]]
    (Tiered.epsNormalize w10NormF [3]) w10sg = some w10row
  simp only [hu]
  refine Tiered.tier3ForBrand_eq_some.mpr
    ⟨⟨0, "g", w10u * w10u, 1, 1, 1, 1, 4/10 * (w10u * w10u) + 6/10⟩, ?_, ?_, ?_⟩
  · rw [hbn]
    simp only [List.map_cons, List.map_nil]
    rw [hdot, find_top_k_singleton]
    simp only [List.map_cons, List.map_nil, List.getD_cons_zero]
    simp only [Tiered.bestLoop, List.foldl_cons, List.foldl_nil, Tiered.bestStep]
    simp only [hb0]
    norm_num [w10u]
  · show ((Tiered.TIER3_THRESHOLD : ℚ) : ℚ) ≤ _
    norm_num [Tiered.TIER3_THRESHOLD, w10u]
  · show w10row = _
    unfold w10row
    rfl

set_option maxHeartbeats 1000000 in
/-- C10 (confirmed).  Every Tier-3 match record carries
`confidence = 0.4*cos_sim + 0.3*jaro_winkler_norm + 0.2*token_jaccard +
0.1*contains_match` (the combined weighted score of its own stored
features), and this confidence lies in `[TIER3_THRESHOLD, 1] = [0.75, 1]`:
a record is emitted only when the score reaches the fixed floor, and the
score cannot exceed 1 because the weights sum to 1 while every feature is
at most 1 — the cosine similarity by the Cauchy-Schwarz bound on the
`1e-10`-regularized normalized vectors (`normF` is the vector norm,
constrained by the two stated inequalities, which the real
`np.linalg.norm` satisfies: `Tiered.normF_real_spec`). -/
theorem C10_confidence {α} [LinearOrderedField α] (normF : List α → α)
    (hnorm : ∀ v : List α, 0 ≤ normF v ∧
      Tiered.sumSq v ≤ normF v * normF v)
    (embedOf : String → List α) (k : ℕ) (sg : List Tiered.SGRow)
    (paw : List Tiered.PawRow) (matched : List String) :
    ∀ r ∈ Tiered.tier3_fuzzy_matching normF embedOf k sg paw matched,
      r.tier = 3 ∧
      r.confidence = 4/10 * r.cosSim + 3/10 * (r.jaroWinklerNorm : α) +
        2/10 * (r.tokenJaccard : α) + 1/10 * (r.containsMatch : α) ∧
      ((Tiered.TIER3_THRESHOLD : ℚ) : α) ≤ r.confidence ∧
      r.confidence ≤ 1 := by
  intro r hr
  unfold Tiered.tier3_fuzzy_matching at hr
  rcases List.mem_filterMap.mp hr with ⟨s, hs, hf⟩
  rcases Tiered.tier3ForBrand_eq_some.mp hf with ⟨b, hb, hth, hreq⟩
  rcases Tiered.bestLoop_some hb with ⟨c, hc, hbeq⟩
  rcases List.mem_map.mp hc with ⟨p, hp, hpeq⟩
  have hcos1 : c.2.2 ≤ 1 := by
    have hcos := Phase1.snd_mem_of_mem_top_k hp
    rcases List.mem_map.mp hcos with ⟨cv, hcv, hval⟩
    rcases List.mem_map.mp hcv with ⟨nm, _, hnm⟩
    rw [← hpeq]
    show p.2 ≤ 1
    rw [← hval, ← hnm]
    exact Tiered.cos_le_one normF hnorm _ _
  have hscore : b.combinedScore = 4/10 * b.cosSim +
      3/10 * (b.jaroWinklerNorm : α) + 2/10 * (b.tokenJaccard : α) +
      1/10 * (b.containsMatch : α) := by
    rw [hbeq]
    exact Tiered.mkBest_score _ _
  have hcs : b.cosSim = c.2.2 := by
    rw [hbeq]
    exact Tiered.mkBest_cosSim _ _
  have hbounds := Tiered.mkBest_bounds
    (Tiered.normalize_name s.brandName) c
  rw [← hbeq] at hbounds
  refine ⟨?_, ?_, ?_, ?_⟩
  · rw [hreq]
  · rw [hreq]
    exact hscore
  · rw [hreq]
    exact hth
  · rw [hreq]
    show b.combinedScore ≤ 1
    rw [hscore, hcs]
    have hjn0 : (0 : α) ≤ (b.jaroWinklerNorm : α) := by
      exact_mod_cast hbounds.1
    have hjn1 : (b.jaroWinklerNorm : α) ≤ 1 := by
      exact_mod_cast hbounds.2.1
    have htj0 : (0 : α) ≤ (b.tokenJaccard : α) := by
      exact_mod_cast hbounds.2.2.1
    have htj1 : (b.tokenJaccard : α) ≤ 1 := by
      exact_mod_cast hbounds.2.2.2.1
    have hcm0 : (0 : α) ≤ (b.containsMatch : α) := by
      exact_mod_cast hbounds.2.2.2.2.1
    have hcm1 : (b.containsMatch : α) ≤ 1 := by
      exact_mod_cast hbounds.2.2.2.2.2
    linarith

/-- C10 witness: the theorem applied at the concrete one-brand,
one-company scenario, at the record the Tier-3 pass emits there. -/
theorem C10_witness :
    w10row.tier = 3 ∧
    w10row.confidence = 4/10 * w10row.cosSim +
      3/10 * (w10row.jaroWinklerNorm : ℚ) +
      2/10 * (w10row.tokenJaccard : ℚ) +
      1/10 * (w10row.containsMatch : ℚ) ∧
    ((Tiered.TIER3_THRESHOLD : ℚ) : ℚ) ≤ w10row.confidence ∧
    w10row.confidence ≤ 1 :=
  C10_confidence w10NormF w10NormF_spec (fun _ => ([3] : List ℚ)) 1
    [w10sg] [w10paw] [] w10row w10_mem

/-! ### `15_singleton_phase4_predict.py`, `main` step [6] (lines 149-160):
best-match selection of the final crosswalk.  `candidates` rows carry a
POI `location_name`, a matched `company_name` and a `match_probability`;
`matches = candidates[candidates['is_predicted_match']]` keeps the rows
with `match_probability >= threshold` in candidate order;
`matches.sort_values('match_probability', ascending=False)` is numpy's
stable ascending argsort reversed (pandas `nargsort` computes the
ascending indexer and flips it with `[::-1]`), and
`groupby('location_name')` (default `sort=True`) sorts the distinct
names and `.first()` takes, per name, the first row of the sorted
frame. -/

namespace Phase4

structure CandRow where
  locationName : String
  companyName : String
  matchProb : ℚ
deriving DecidableEq

/-- Code-point lexicographic order on character lists: the order Python
(and hence the pandas groupby key sort) uses on `str` keys. -/
def leCharList : List Char → List Char → Bool
  | [], _ => true
  | _ :: _, [] => false
  | a :: as, b :: bs =>
    if a.toNat < b.toNat then true
    else if b.toNat < a.toNat then false
    else leCharList as bs

def leStr (x y : String) : Bool := leCharList x.data y.data

def leProbC (x y : CandRow) : Bool := decide (x.matchProb ≤ y.matchProb)

/-- Line 144: `is_predicted_match = probs >= threshold`. -/
def is_predicted_match (t : ℚ) (c : CandRow) : Bool := decide (t ≤ c.matchProb)

/-- Line 151: `matches = candidates[candidates['is_predicted_match']]`. -/
def matchesList (t : ℚ) (cands : List CandRow) : List CandRow :=
  cands.filter (is_predicted_match t)

/-- Line 155: `sort_values('match_probability', ascending=False)` -
stable ascending sort, reversed. -/
def sorted_matches (t : ℚ) (cands : List CandRow) : List CandRow :=
  (ER.sSort leProbC (matchesList t cands)).reverse

/-- Line 156: the group keys of `groupby('location_name')`, sorted
ascending (`sort=True` default) and deduplicated. -/
def group_names (t : ℚ) (cands : List CandRow) : List String :=
  (ER.sSort leStr ((matchesList t cands).map
    (fun c => c.locationName))).dedup

/-- Lines 155-156: `.first()` takes, for each group key, the first row
of the descending-sorted frame with that `location_name`. -/
def best_matches (t : ℚ) (cands : List CandRow) : List CandRow :=
  (group_names t cands).filterMap
    (fun nm => (sorted_matches t cands).find? (fun c => c.locationName == nm))

theorem leProbC_total (x y : CandRow) :
    leProbC x y = true ∨ leProbC y x = true := by
  unfold leProbC
  rcases le_total x.matchProb y.matchProb with h | h
  · exact Or.inl (decide_eq_true h)
  · exact Or.inr (decide_eq_true h)

theorem leProbC_trans (x y z : CandRow) (h1 : leProbC x y = true)
    (h2 : leProbC y z = true) : leProbC x z = true := by
  unfold leProbC at *
  exact decide_eq_true (le_trans (of_decide_eq_true h1) (of_decide_eq_true h2))

theorem find?_eq_head_filter (p : CandRow → Bool) :
    ∀ l : List CandRow, l.find? p = (l.filter p).head? := by
  intro l
  induction l with
  | nil => rfl
  | cons a l ih =>
    cases h : p a with
    | true =>
      rw [List.find?_cons_of_pos _ h, List.filter_cons_of_pos h]
      rfl
    | false =>
      have h' : ¬ p a = true := by simp [h]
      rw [List.find?_cons_of_neg _ h', List.filter_cons_of_neg h', ih]

theorem desc_sorted_matches (t : ℚ) (cands : List CandRow) :
    (sorted_matches t cands).Pairwise
      (fun x y => y.matchProb ≤ x.matchProb) := by
  unfold sorted_matches
  rw [List.pairwise_reverse]
  have h := ER.sorted_sSort leProbC leProbC_total leProbC_trans
    (matchesList t cands)
  exact h.imp (fun hxy => of_decide_eq_true hxy)

theorem mem_sorted_matches {t : ℚ} {cands : List CandRow} {c : CandRow} :
    c ∈ sorted_matches t cands ↔ c ∈ cands ∧ t ≤ c.matchProb := by
  unfold sorted_matches
  rw [List.mem_reverse, ER.mem_sSort]
  unfold matchesList
  rw [List.mem_filter]
  unfold is_predicted_match
  simp only [decide_eq_true_eq]

end Phase4

/-- C5 (corrected).  For every source name with a candidate at or above
the threshold, the assembler keeps exactly one decision per name (names
pairwise distinct), and the kept row attains the maximum match
probability among that name's threshold-passing candidates — but ties in
probability are broken by LATEST original candidate position, not by
candidate rank: the kept row is the last, in candidate order, of the
threshold-passing rows sharing the name and the maximal probability
(pandas' descending sort reverses the stable ascending argsort, so
`groupby(...).first()` sees the tied rows in reversed candidate order). -/
theorem C5_amended (t : ℚ) (cands : List Phase4.CandRow) :
    (∀ r ∈ Phase4.best_matches t cands,
      r ∈ cands ∧ t ≤ r.matchProb ∧
      (∀ c ∈ cands, c.locationName = r.locationName → t ≤ c.matchProb →
        c.matchProb ≤ r.matchProb) ∧
      ((Phase4.matchesList t cands).filter (fun c =>
          c.locationName == r.locationName &&
          c.matchProb == r.matchProb)).getLast? = some r) ∧
    (∀ nm : String, (∃ r ∈ Phase4.best_matches t cands, r.locationName = nm) ↔
      ∃ c ∈ cands, c.locationName = nm ∧ t ≤ c.matchProb) ∧
    (Phase4.best_matches t cands).Pairwise
      (fun a b => a.locationName ≠ b.locationName) := by
  refine ⟨?_, ?_, ?_⟩
  · intro r hr
    rcases List.mem_filterMap.mp hr with ⟨nm, hnm, hfind⟩
    have hname : r.locationName = nm := by
      have := List.find?_some hfind
      exact eq_of_beq this
    have hrs : r ∈ Phase4.sorted_matches t cands :=
      List.mem_of_find?_eq_some hfind
    have hrc := Phase4.mem_sorted_matches.mp hrs
    rcases List.find?_eq_some.mp hfind with ⟨hpr, as, bs, hsplit, hfail⟩
    refine ⟨hrc.1, hrc.2, ?_, ?_⟩
    · intro c hc hcn hct
      have hcs : c ∈ Phase4.sorted_matches t cands :=
        Phase4.mem_sorted_matches.mpr ⟨hc, hct⟩
      rw [hsplit] at hcs
      rcases List.mem_append.mp hcs with hca | hcr
      · exfalso
        have := hfail c hca
        rw [Bool.not_eq_true', beq_eq_false_iff_ne] at this
        exact this (hcn.trans hname)
      · rcases List.mem_cons.mp hcr with rfl | hcb
        · exact le_refl _
        · have hdesc := Phase4.desc_sorted_matches t cands
          rw [hsplit] at hdesc
          have h2 := (List.pairwise_append.mp hdesc).2.1
          exact (List.pairwise_cons.mp h2).1 c hcb
    · have hfp : (Phase4.sorted_matches t cands).find? (fun c =>
          c.locationName == r.locationName &&
          c.matchProb == r.matchProb) = some r := by
        refine List.find?_eq_some.mpr ⟨by simp, as, bs, hsplit, ?_⟩
        intro a ha
        have := hfail a ha
        rw [Bool.not_eq_true'] at this ⊢
        rw [Bool.and_eq_false_iff]
        exact Or.inl (by rw [hname]; exact this)
      have htied : ∀ x y : Phase4.CandRow,
          (x.locationName == r.locationName && x.matchProb == r.matchProb) = true →
          (y.locationName == r.locationName && y.matchProb == r.matchProb) = true →
          Phase4.leProbC x y = true := by
        intro x y hx hy
        rw [Bool.and_eq_true] at hx hy
        unfold Phase4.leProbC
        rw [eq_of_beq hx.2, eq_of_beq hy.2]
        exact decide_eq_true (le_refl _)
      have hfil := ER.filter_sSort_of_tied Phase4.leProbC (fun c =>
          c.locationName == r.locationName && c.matchProb == r.matchProb)
        (Phase4.matchesList t cands) htied
      rw [Phase4.find?_eq_head_filter] at hfp
      unfold Phase4.sorted_matches at hfp
      rw [List.filter_reverse, hfil, List.head?_reverse] at hfp
      exact hfp
  · intro nm
    constructor
    · rintro ⟨r, hr, rfl⟩
      rcases List.mem_filterMap.mp hr with ⟨nm', _, hfind⟩
      have hrs : r ∈ Phase4.sorted_matches t cands :=
        List.mem_of_find?_eq_some hfind
      have hrc := Phase4.mem_sorted_matches.mp hrs
      exact ⟨r, hrc.1, rfl, hrc.2⟩
    · rintro ⟨c, hc, hcn, hct⟩
      have hcm : c ∈ Phase4.matchesList t cands := by
        unfold Phase4.matchesList Phase4.is_predicted_match
        exact List.mem_filter.mpr ⟨hc, decide_eq_true hct⟩
      have hnm : nm ∈ Phase4.group_names t cands := by
        unfold Phase4.group_names
        rw [List.mem_dedup, ER.mem_sSort]
        exact List.mem_map.mpr ⟨c, hcm, hcn⟩
      have hcs : c ∈ Phase4.sorted_matches t cands :=
        Phase4.mem_sorted_matches.mpr ⟨hc, hct⟩
      have hsome : ((Phase4.sorted_matches t cands).find? (fun x =>
          x.locationName == nm)).isSome = true :=
        List.find?_isSome.mpr ⟨c, hcs, by rw [hcn]; exact beq_self_eq_true _⟩
      rcases Option.isSome_iff_exists.mp hsome with ⟨r, hfind⟩
      refine ⟨r, List.mem_filterMap.mpr ⟨nm, hnm, hfind⟩, ?_⟩
      have hb := List.find?_some hfind
      exact eq_of_beq hb
  · have hnodup : (Phase4.group_names t cands).Pairwise (fun a b => a ≠ b) :=
      List.nodup_dedup _
    refine List.Pairwise.filterMap _ ?_ hnodup
    intro nm nm' hne x hx y hy
    rw [Option.mem_def] at hx hy
    have hxb := List.find?_some hx
    have hyb := List.find?_some hy
    have hxn : x.locationName = nm := eq_of_beq hxb
    have hyn : y.locationName = nm' := eq_of_beq hyb
    rw [hxn, hyn]
    exact hne

/-- C5 counterexample: two candidates for POI name `"a"` tied at
probability 1; the spec's tie rule (candidate rank, i.e. first in
original order) would keep `"X"`, but the code keeps `"Y"`, the LAST
tied candidate. -/
theorem C5_counterexample :
    Phase4.best_matches 1 [⟨"a", "X", 1⟩, ⟨"a", "Y", 1⟩] =
      [⟨"a", "Y", 1⟩] ∧
    (⟨"a", "X", 1⟩ : Phase4.CandRow) ∉
      Phase4.best_matches 1 [⟨"a", "X", 1⟩, ⟨"a", "Y", 1⟩] := by decide

/-! ### `14_singleton_phase3_train_model.py`: threshold calibration.
`find_optimal_threshold` (lines 110-121) runs
`sklearn.precision_recall_curve` on the held-out labels and predicted
probabilities and maximizes the stabilized F1.  The curve's thresholds
are the distinct predicted scores, ascending, truncated below the
largest score at which recall is still 1 (sklearn keeps the reversed
slice `[last_ind::-1]` of its descending arrays, where `last_ind` is the
first index attaining full recall); a threshold below the smallest
positive's score is therefore kept only if it IS that smallest positive
score, i.e. a distinct score `t` survives iff some positive has score
`<= t`.  At an attained threshold `t`: `tps = #{score >= t, positive}`,
`predicted positive = #{score >= t}`, `precision = tps/pp`,
`recall = tps/P`.  The code computes
`f1 = 2*(precision*recall)/(precision+recall+1e-10)` over the curve
minus its appended `(1, 0)` endpoint (`[:-1]`), takes `np.argmax`
(FIRST index of the maximum), and `main` (lines 170-196) stores the
returned threshold and F1 into `metrics['optimal_threshold']` /
`metrics['optimal_f1']`, saved next to the fitted model. -/

namespace Phase3

def leQ (x y : ℚ) : Bool := decide (x ≤ y)

def totalPos (pairs : List (Bool × ℚ)) : ℕ :=
  (pairs.filter (fun p => p.1)).length

def tpsAt (pairs : List (Bool × ℚ)) (t : ℚ) : ℕ :=
  (pairs.filter (fun p => p.1 && decide (t ≤ p.2))).length

def ppsAt (pairs : List (Bool × ℚ)) (t : ℚ) : ℕ :=
  (pairs.filter (fun p => decide (t ≤ p.2))).length

def precisionAt (pairs : List (Bool × ℚ)) (t : ℚ) : ℚ :=
  (tpsAt pairs t : ℚ) / (ppsAt pairs t : ℚ)

def recallAt (pairs : List (Bool × ℚ)) (t : ℚ) : ℚ :=
  (tpsAt pairs t : ℚ) / (totalPos pairs : ℚ)

/-- Line 115: the epsilon-stabilized F1 the script maximizes. -/
def f1At (pairs : List (Bool × ℚ)) (t : ℚ) : ℚ :=
  2 * (precisionAt pairs t * recallAt pairs t) /
    (precisionAt pairs t + recallAt pairs t + 1/10000000000)

def distinctScores (pairs : List (Bool × ℚ)) : List ℚ :=
  (ER.sSort leQ (pairs.map (fun p => p.2))).dedup

/-- The thresholds of `precision_recall_curve`: distinct scores,
ascending, truncated at full recall. -/
def prThresholds (pairs : List (Bool × ℚ)) : List ℚ :=
  (distinctScores pairs).filter
    (fun t => pairs.any (fun p => p.1 && decide (p.2 ≤ t)))

/-- `np.argmax`: first index attaining the maximum. -/
def argmaxPair : List ℚ → Option (ℕ × ℚ)
  | [] => none
  | x :: xs =>
    match argmaxPair xs with
    | none => some (0, x)
    | some (j, m) => if x < m then some (j + 1, m) else some (0, x)

def argmaxIdx (l : List ℚ) : ℕ :=
  match argmaxPair l with
  | none => 0
  | some (j, _) => j

/-- Lines 110-121, returning `(best_threshold, best_f1)`. -/
def find_optimal_threshold (pairs : List (Bool × ℚ)) : ℚ × ℚ :=
  ((prThresholds pairs).getD
      (argmaxIdx ((prThresholds pairs).map (f1At pairs))) 0,
    ((prThresholds pairs).map (f1At pairs)).getD
      (argmaxIdx ((prThresholds pairs).map (f1At pairs))) 0)

/-- The fields `main` adds to `metrics` at lines 174-175 before writing
`{msa}_metrics.json` next to the fitted model. -/
structure TrainMetrics where
  optimal_threshold : ℚ
  optimal_f1 : ℚ

def saved_metrics (pairs : List (Bool × ℚ)) : TrainMetrics :=
  ⟨(find_optimal_threshold pairs).1, (find_optimal_threshold pairs).2⟩

theorem argmaxPair_spec :
    ∀ l : List ℚ, l ≠ [] →
      ∃ j m, argmaxPair l = some (j, m) ∧ j < l.length ∧
        l.getD j 0 = m ∧ ∀ k, k < l.length → l.getD k 0 ≤ m := by
  intro l
  induction l with
  | nil => intro h; exact absurd rfl h
  | cons x xs ih =>
    intro _
    by_cases hxs : xs = []
    · subst hxs
      refine ⟨0, x, rfl, by simp, rfl, ?_⟩
      intro k hk
      simp only [List.length_cons, List.length_nil] at hk
      have hk0 : k = 0 := by omega
      subst hk0
      simp
    · obtain ⟨j, m, hjm, hlt, hget, hmax⟩ := ih hxs
      by_cases hx : x < m
      · refine ⟨j + 1, m, ?_, by simpa using Nat.succ_lt_succ hlt, ?_, ?_⟩
        · show argmaxPair (x :: xs) = some (j + 1, m)
          unfold argmaxPair
          rw [hjm]
          dsimp only
          rw [if_pos hx]
        · rw [List.getD_cons_succ]
          exact hget
        · intro k hk
          cases k with
          | zero => rw [List.getD_cons_zero]; exact le_of_lt hx
          | succ k' =>
            rw [List.getD_cons_succ]
            exact hmax k' (Nat.lt_of_succ_lt_succ hk)
      · refine ⟨0, x, ?_, by simp, rfl, ?_⟩
        · show argmaxPair (x :: xs) = some (0, x)
          unfold argmaxPair
          rw [hjm]
          dsimp only
          rw [if_neg hx]
        · intro k hk
          cases k with
          | zero => rw [List.getD_cons_zero]
          | succ k' =>
            rw [List.getD_cons_succ]
            exact le_trans (hmax k' (Nat.lt_of_succ_lt_succ hk)) (not_lt.mp hx)

end Phase3

/-- C8 (confirmed).  If the held-out set contains at least one positive
label, the returned threshold lies on the precision-recall curve, the
returned F1 is the curve's (epsilon-stabilized, exactly as the code
computes it) F1 at that threshold, that F1 is maximal over every curve
threshold, and `main` persists both values into the saved metrics
alongside the fitted model. -/
theorem C8_threshold (pairs : List (Bool × ℚ))
    (h : ∃ p ∈ pairs, p.1 = true) :
    (Phase3.find_optimal_threshold pairs).1 ∈ Phase3.prThresholds pairs ∧
    (Phase3.find_optimal_threshold pairs).2 =
      Phase3.f1At pairs (Phase3.find_optimal_threshold pairs).1 ∧
    (∀ t ∈ Phase3.prThresholds pairs,
      Phase3.f1At pairs t ≤ (Phase3.find_optimal_threshold pairs).2) ∧
    (Phase3.saved_metrics pairs).optimal_threshold =
      (Phase3.find_optimal_threshold pairs).1 ∧
    (Phase3.saved_metrics pairs).optimal_f1 =
      (Phase3.find_optimal_threshold pairs).2 := by
  rcases h with ⟨p0, hp0, hp0t⟩
  have hmem : p0.2 ∈ Phase3.prThresholds pairs := by
    unfold Phase3.prThresholds Phase3.distinctScores
    rw [List.mem_filter, List.mem_dedup, ER.mem_sSort]
    refine ⟨List.mem_map.mpr ⟨p0, hp0, rfl⟩, ?_⟩
    rw [List.any_eq_true]
    exact ⟨p0, hp0, by rw [hp0t]; simp⟩
  have hne : Phase3.prThresholds pairs ≠ [] := by
    intro hnil
    rw [hnil] at hmem
    cases hmem
  have hne2 : (Phase3.prThresholds pairs).map (Phase3.f1At pairs) ≠ [] := by
    intro hnil
    exact hne (List.map_eq_nil_iff.mp hnil)
  obtain ⟨j, m, hjm, hlt, hget, hmax⟩ := Phase3.argmaxPair_spec _ hne2
  have hbi : Phase3.argmaxIdx
      ((Phase3.prThresholds pairs).map (Phase3.f1At pairs)) = j := by
    unfold Phase3.argmaxIdx
    rw [hjm]
  have hlen : ((Phase3.prThresholds pairs).map (Phase3.f1At pairs)).length =
      (Phase3.prThresholds pairs).length := List.length_map _ _
  have hjlt : j < (Phase3.prThresholds pairs).length := hlen ▸ hlt
  have hdef1 : (Phase3.find_optimal_threshold pairs).1 =
      (Phase3.prThresholds pairs).getD j 0 := by
    unfold Phase3.find_optimal_threshold
    rw [hbi]
  have hdef2 : (Phase3.find_optimal_threshold pairs).2 =
      ((Phase3.prThresholds pairs).map (Phase3.f1At pairs)).getD j 0 := by
    unfold Phase3.find_optimal_threshold
    rw [hbi]
  have hmap : ((Phase3.prThresholds pairs).map (Phase3.f1At pairs)).getD j 0 =
      Phase3.f1At pairs ((Phase3.prThresholds pairs).getD j 0) := by
    rw [List.getD_eq_getElem _ _ hlt, List.getD_eq_getElem _ _ hjlt,
      List.getElem_map]
  refine ⟨?_, ?_, ?_, rfl, rfl⟩
  · rw [hdef1, List.getD_eq_getElem _ _ hjlt]
    exact List.getElem_mem hjlt
  · rw [hdef1, hdef2, hmap]
  · intro t ht
    rcases List.mem_iff_getElem.mp ht with ⟨k, hk, hkt⟩
    have hklt : k < ((Phase3.prThresholds pairs).map (Phase3.f1At pairs)).length := by
      rw [hlen]; exact hk
    have hkval : ((Phase3.prThresholds pairs).map (Phase3.f1At pairs)).getD k 0 =
        Phase3.f1At pairs t := by
      rw [List.getD_eq_getElem _ _ hklt, List.getElem_map, hkt]
    rw [hdef2, hget, ← hkval]
    exact hmax k hklt

/-- C8 witness: the theorem applied at a single positively-labeled pair
of probability 1. -/
theorem C8_witness :
    ((Phase3.find_optimal_threshold [(true, 1)]).1 ∈
        Phase3.prThresholds [(true, 1)] ∧
      (Phase3.find_optimal_threshold [(true, 1)]).2 =
        Phase3.f1At [(true, 1)] (Phase3.find_optimal_threshold [(true, 1)]).1 ∧
      (∀ t ∈ Phase3.prThresholds [(true, 1)],
        Phase3.f1At [(true, 1)] t ≤ (Phase3.find_optimal_threshold [(true, 1)]).2) ∧
      (Phase3.saved_metrics [(true, 1)]).optimal_threshold =
        (Phase3.find_optimal_threshold [(true, 1)]).1 ∧
      (Phase3.saved_metrics [(true, 1)]).optimal_f1 =
        (Phase3.find_optimal_threshold [(true, 1)]).2) :=
  C8_threshold [(true, 1)] (by decide)

/-! ### `13_singleton_phase2_sample.py`: stratified sampling for
labeling.  Every random draw is a pandas `.sample(...)` call with a
hard-coded `random_state` (42 for the per-stratum draws, 43 for the
shortfall top-up, 44 for the final shuffle), so the whole pipeline is a
deterministic function of the candidate table and the sample size.  The
seeded sampler itself is modeled by `pdSample`: an explicit
linear-congruential selection without replacement whose key is the given
`random_state` when one is provided and the ambient entropy `world`
otherwise — the code always provides one, which is exactly what the
determinism theorem exercises.  Strata bounds and proportions are the
literals of lines 33-39 (floats read as exact rationals);
`int(n_samples * proportion)` truncates (`natFloor`); an empty stratum
is skipped (`continue`, line 49); the shortfall step (lines 61-71)
reproduces the code's index bug faithfully: `already_sampled =
set(result.index)` is taken AFTER `ignore_index=True`, so it is the
range `{0..len(result)-1}` of positions, and the `medium_high` pool is
filtered by ORIGINAL dataframe index against that range.  `main`
(lines 113-121) shuffles with seed 44 and assigns `sample_id = 1..n`. -/

namespace Phase2

structure PairRow where
  locationName : String
  companyName : String
  cosSim : ℚ
deriving DecidableEq

structure SampledRow where
  row : PairRow
  stratum : String
deriving DecidableEq

def natFloor (q : ℚ) : ℕ := (⌊q⌋).toNat

def lcg (s : ℕ) : ℕ := (1103515245 * s + 12345) % 2147483648

def pick {α : Type} (d : α) : ℕ → List α → ℕ → List α
  | _, _, 0 => []
  | _, [], _ + 1 => []
  | key, r :: rs, n + 1 =>
    (r :: rs).getD (key % (r :: rs).length) d ::
      pick d (lcg key) ((r :: rs).eraseIdx (key % (r :: rs).length)) n

def pdSample {α : Type} (d : α) (world : ℕ) (seed : Option ℕ)
    (rows : List α) (n : ℕ) : List α :=
  pick d (lcg (seed.getD world)) rows n

def strataList : List (String × ℚ × ℚ × ℚ) :=
  [("high", 9/10, 101/100, 25/100),
   ("medium_high", 8/10, 9/10, 30/100),
   ("medium", 7/10, 8/10, 25/100),
   ("low", 6/10, 7/10, 15/100),
   ("very_low", 0, 6/10, 5/100)]

def dRow : ℕ × PairRow := (0, ⟨"", "", 0⟩)

def sampleStratum (world : ℕ) (indexed : List (ℕ × PairRow))
    (n_samples : ℕ) (s : String × ℚ × ℚ × ℚ) : List (ℕ × SampledRow) :=
  if (indexed.filter (fun p => decide (s.2.1 ≤ p.2.cosSim) &&
        decide (p.2.cosSim < s.2.2.1))).isEmpty then []
  else
    (pdSample dRow world (some 42)
      (indexed.filter (fun p => decide (s.2.1 ≤ p.2.cosSim) &&
        decide (p.2.cosSim < s.2.2.1)))
      (min (natFloor ((n_samples : ℚ) * s.2.2.2))
        (indexed.filter (fun p => decide (s.2.1 ≤ p.2.cosSim) &&
          decide (p.2.cosSim < s.2.2.1))).length)).map
      (fun p => (p.1, ⟨p.2, s.1⟩))

def stratResult (world : ℕ) (df : List PairRow) (n_samples : ℕ) :
    List (ℕ × SampledRow) :=
  (strataList.map (sampleStratum world df.enum n_samples)).flatten

def stratified_sample (world : ℕ) (df : List PairRow) (n_samples : ℕ) :
    List SampledRow :=
  if (stratResult world df n_samples).length < n_samples then
    if n_samples - (stratResult world df n_samples).length ≤
        ((df.enum.filter (fun p => decide ((8:ℚ)/10 ≤ p.2.cosSim) &&
            decide (p.2.cosSim < (9:ℚ)/10))).filter
          (fun p => !(decide (p.1 < (stratResult world df n_samples).length)))).length then
      ((stratResult world df n_samples) ++
        (pdSample dRow world (some 43)
          ((df.enum.filter (fun p => decide ((8:ℚ)/10 ≤ p.2.cosSim) &&
              decide (p.2.cosSim < (9:ℚ)/10))).filter
            (fun p => !(decide (p.1 < (stratResult world df n_samples).length))))
          (n_samples - (stratResult world df n_samples).length)).map
        (fun (p : ℕ × PairRow) =>
          (p.1, (⟨p.2, "medium_high_extra"⟩ : SampledRow)))).map
        (fun p => p.2)
    else (stratResult world df n_samples).map (fun p => p.2)
  else (stratResult world df n_samples).map (fun p => p.2)

def dS : SampledRow := ⟨⟨"", "", 0⟩, ""⟩

def mainSample (world : ℕ) (df : List PairRow) (n_samples : ℕ) :
    List (ℕ × SampledRow) :=
  ((pdSample dS world (some 44) (stratified_sample world df n_samples)
    (stratified_sample world df n_samples).length).enum).map
    (fun p => (p.1 + 1, p.2))

theorem mem_pick {α : Type} (d : α) :
    ∀ (n key : ℕ) (rows : List α), ∀ x ∈ pick d key rows n, x ∈ rows := by
  intro n
  induction n with
  | zero => intro key rows x hx; cases rows <;> cases hx
  | succ n ih =>
    intro key rows x hx
    cases rows with
    | nil => cases hx
    | cons r rs =>
      rcases List.mem_cons.mp hx with rfl | hmem
      · have hlt : key % (r :: rs).length < (r :: rs).length :=
          Nat.mod_lt _ (Nat.succ_pos _)
        rw [List.getD_eq_getElem _ _ hlt]
        exact List.getElem_mem hlt
      · exact (List.eraseIdx_sublist _ _).mem (ih (lcg key) _ x hmem)

theorem stratum_stratResult (world : ℕ) (df : List PairRow) (n : ℕ) :
    ∀ p ∈ stratResult world df n,
      p.2.stratum ∈ (["high", "medium_high", "medium", "low",
        "very_low"] : List String) := by
  intro p hp
  unfold stratResult at hp
  rcases List.mem_flatten.mp hp with ⟨l, hl, hpl⟩
  rcases List.mem_map.mp hl with ⟨s, hs, rfl⟩
  unfold sampleStratum at hpl
  split at hpl
  · cases hpl
  · rcases List.mem_map.mp hpl with ⟨q, _, rfl⟩
    show s.1 ∈ _
    simp only [strataList, List.mem_cons, List.mem_singleton] at hs
    rcases hs with rfl | rfl | rfl | rfl | rfl | h
    · simp
    · simp
    · simp
    · simp
    · simp
    · cases h

theorem stratum_stratified (world : ℕ) (df : List PairRow) (n : ℕ) :
    ∀ r ∈ stratified_sample world df n,
      r.stratum ∈ (["high", "medium_high", "medium", "low", "very_low",
        "medium_high_extra"] : List String) := by
  have hbase : ∀ p ∈ stratResult world df n,
      p.2.stratum ∈ (["high", "medium_high", "medium", "low", "very_low",
        "medium_high_extra"] : List String) := by
    intro p hp
    have h5 := stratum_stratResult world df n p hp
    simp only [List.mem_cons, List.mem_singleton] at h5 ⊢
    tauto
  intro r hr
  unfold stratified_sample at hr
  split at hr
  · split at hr
    · rcases List.mem_map.mp hr with ⟨q, hq, rfl⟩
      rcases List.mem_append.mp hq with hq1 | hq2
      · exact hbase q hq1
      · rcases List.mem_map.mp hq2 with ⟨u, _, rfl⟩
        simp
    · rcases List.mem_map.mp hr with ⟨q, hq, rfl⟩
      exact hbase q hq
  · rcases List.mem_map.mp hr with ⟨q, hq, rfl⟩
    exact hbase q hq

end Phase2

/-- C9 (confirmed).  With the candidate table and sample size fixed, two
runs of the sampling pipeline — under arbitrary, possibly different,
ambient entropy — produce identical outputs (every draw carries a fixed
`random_state`), and every sampled pair records the stratum it was drawn
from (one of the five band names or `medium_high_extra` for the
shortfall top-up). -/
theorem C9_determinism (df : List Phase2.PairRow) (n w₁ w₂ : ℕ) :
    Phase2.mainSample w₁ df n = Phase2.mainSample w₂ df n ∧
    ∀ p ∈ Phase2.mainSample w₁ df n,
      p.2.stratum ∈ (["high", "medium_high", "medium", "low", "very_low",
        "medium_high_extra"] : List String) := by
  refine ⟨rfl, ?_⟩
  intro p hp
  unfold Phase2.mainSample at hp
  rcases List.mem_map.mp hp with ⟨q, hq, rfl⟩
  have hq2 := ER.mem_of_mem_enum hq
  have hmem := Phase2.mem_pick Phase2.dS _ _ _ _ hq2
  exact Phase2.stratum_stratified w₁ df n q.2 hmem
